import Mathlib

/-!
Verification development for the RendererQml utility header
(`source/qml/Library/RendererQml/Utils.h`) of the AdaptiveCards QML renderer.

Strings are modelled as lists of characters (`Str`).  The widget value
types (`Checkbox`, `ChoiceSet`) and their constructors are embedded from
the source header.  The text-function subsystem (`ApplyTextFunctions`,
`GetValidCultureInfo`, `GetLocalTime`) and `ParseChoiceSetInputDefaultValues`
are only declared in the header; their behaviour is modelled from the
design specification, as marked on each definition.
-/

namespace ACQml

/-- Strings are modelled as lists of characters. -/
abbrev Str := List Char

/-! ## Widget value types, embedded from the source header -/

/-- Embedded from `enum CheckBoxType` (Utils.h lines 8-14). -/
inductive CheckBoxType
  | Toggle
  | RadioButton
  | CheckBox
  | ComboBox
deriving DecidableEq, Repr

/-- Embedded from `enum AdaptiveCards::ChoiceSetStyle` as used at Utils.h line 60. -/
inductive ChoiceSetStyle
  | Compact
  | Expanded
deriving DecidableEq, Repr

/-- Embedded from `struct Checkbox` (Utils.h lines 16-52): one field per C++ data
member, in declaration order. -/
structure Checkbox where
  id : Str
  type : CheckBoxType
  text : Str
  value : Str
  valueOn : Str
  valueOff : Str
  fontSize : Int
  isWrap : Bool
  isVisible : Bool
  isChecked : Bool
deriving DecidableEq, Repr

/-- Embedded from the long-form `Checkbox` constructor (Utils.h lines 29-40):
every field is taken from the corresponding parameter. -/
def Checkbox.mkFull (id : Str) (type : CheckBoxType) (text value valueOn valueOff : Str)
    (fontSize : Int) (isWrap isVisible isChecked : Bool) : Checkbox :=
  ⟨id, type, text, value, valueOn, valueOff, fontSize, isWrap, isVisible, isChecked⟩

/-- Embedded from the short-form `Checkbox` constructor (Utils.h lines 42-51):
`valueOn` and `valueOff` are absent from the member-initializer list, so the
`const std::string` members are default-initialized to the empty string. -/
def Checkbox.mkShort (id : Str) (type : CheckBoxType) (text value : Str)
    (fontSize : Int) (isWrap isVisible isChecked : Bool) : Checkbox :=
  ⟨id, type, text, value, [], [], fontSize, isWrap, isVisible, isChecked⟩

/-- The fields of `struct Checkbox`, for stating which are `const`-qualified. -/
inductive CheckboxField
  | id
  | type
  | text
  | value
  | valueOn
  | valueOff
  | fontSize
  | isWrap
  | isVisible
  | isChecked
deriving DecidableEq, Repr

/-- Transcription of the `const` qualifiers of the `Checkbox` data members
(Utils.h lines 18-27): every member is declared `const std::string` /
`const int` / `const bool` except `type` (line 19), which is a plain
`CheckBoxType` and hence assignable after construction. -/
def checkboxFieldIsConst : CheckboxField → Bool
  | CheckboxField.type => false
  | _ => true

/-- The C++ assignment `c.type = t`, permitted because `Checkbox::type` is not
`const` (Utils.h line 19). -/
def Checkbox.setType (c : Checkbox) (t : CheckBoxType) : Checkbox :=
  { c with type := t }

/-- Embedded from `struct ChoiceSet` (Utils.h lines 56-73). -/
structure ChoiceSet where
  id : Str
  isMultiSelect : Bool
  style : ChoiceSetStyle
  values : List Str
  choices : List Checkbox
  placeholder : Str
deriving DecidableEq, Repr

/-- Embedded from the `ChoiceSet` constructor (Utils.h lines 65-72). -/
def ChoiceSet.mk' (id : Str) (isMultiSelect : Bool) (style : ChoiceSetStyle)
    (values : List Str) (choices : List Checkbox) (placeholder : Str) : ChoiceSet :=
  ⟨id, isMultiSelect, style, values, choices, placeholder⟩

/-- The fields of `struct ChoiceSet`. -/
inductive ChoiceSetField
  | id
  | isMultiSelect
  | style
  | values
  | choices
  | placeholder
deriving DecidableEq, Repr

/-- Transcription of the `const` qualifiers of the `ChoiceSet` data members
(Utils.h lines 58-63): all members are `const` except `style` (line 60) and
`choices` (line 62), which are plain members and hence assignable after
construction. -/
def choiceSetFieldIsConst : ChoiceSetField → Bool
  | ChoiceSetField.style => false
  | ChoiceSetField.choices => false
  | _ => true

/-- The C++ assignment `cs.style = st`, permitted because `ChoiceSet::style`
is not `const` (Utils.h line 60). -/
def ChoiceSet.setStyle (cs : ChoiceSet) (st : ChoiceSetStyle) : ChoiceSet :=
  { cs with style := st }

/-- The C++ assignment `cs.choices = chs`, permitted because
`ChoiceSet::choices` is not `const` (Utils.h line 62). -/
def ChoiceSet.setChoices (cs : ChoiceSet) (chs : List Checkbox) : ChoiceSet :=
  { cs with choices := chs }

/-! ## Choice-set default-value splitting -/

/-- Modelled from the spec: `Utils::ParseChoiceSetInputDefaultValues` is only
declared in the header (Utils.h line 109); the spec describes it as "a
`,`-separated list with escaping via doubled commas; empty tokens dropped;
order preserved".  `splitEscaped` scans left to right: a doubled comma
contributes a literal comma to the current token, a single comma ends the
current token. -/
def splitEscaped : Str → Str → List Str
  | [], acc => [acc.reverse]
  | ',' :: ',' :: rest, acc => splitEscaped rest (',' :: acc)
  | ',' :: rest, acc => acc.reverse :: splitEscaped rest []
  | c :: rest, acc => splitEscaped rest (c :: acc)

/-- Modelled from the spec: the default-values split, with empty tokens
dropped (kept in the order produced by the scan). -/
def parseChoiceSetInputDefaultValues (value : Str) : List Str :=
  (splitEscaped value []).filter (fun t => !t.isEmpty)

/-! ## Timezone-offset parsing -/

/-- Decimal digit test over characters. -/
def isDig (c : Char) : Bool := '0' ≤ c && c ≤ '9'

/-- Value of a decimal digit character. -/
def digVal (c : Char) : Nat := c.toNat - '0'.toNat

/-- Modelled from the spec: the timezone-offset parse performed by
`TextUtils::GetLocalTime` (declared at Utils.h line 133).  Accepted forms are
`Z` (offset 0) and `+HH:MM` / `-HH:MM` with `HH` at most 14, `MM` at most 59
and total absolute minutes at most 14*60; any other suffix fails
(MALFORMED_OFFSET), modelled by `none`. -/
def parseTzOffset : Str → Option Int
  | ['Z'] => some 0
  | [sg, a, b, ':', c, d] =>
    if (sg = '+' || sg = '-') && isDig a && isDig b && isDig c && isDig d then
      let hh : Nat := 10 * digVal a + digVal b
      let mm : Nat := 10 * digVal c + digVal d
      if hh ≤ 14 && mm ≤ 59 && hh * 60 + mm ≤ 14 * 60 then
        some (if sg = '+' then ((hh * 60 + mm : Nat) : Int) else -((hh * 60 + mm : Nat) : Int))
      else none
    else none
  | _ => none

/-! ## Calendar arithmetic (proleptic Gregorian) -/

/-- A broken-down calendar time (`std::tm` without derived fields). -/
structure DateTime where
  year : Nat
  month : Nat
  day : Nat
  hour : Nat
  minute : Nat
  second : Nat
deriving DecidableEq, Repr

/-- Days from 1970-01-01 to the proleptic-Gregorian date `y-m-d`
(the standard civil-from-days inverse companion). -/
def toDays (y m d : Nat) : Int :=
  let yy : Int := (y : Int) - (if m ≤ 2 then 1 else 0)
  let era : Int := Int.fdiv yy 400
  let yoe : Int := yy - era * 400
  let mp : Int := Int.emod ((m : Int) + 9) 12
  let doy : Int := Int.fdiv (153 * mp + 2) 5 + (d : Int) - 1
  let doe : Int := yoe * 365 + Int.fdiv yoe 4 - Int.fdiv yoe 100 + doy
  era * 146097 + doe - 719468

/-- Proleptic-Gregorian date for a day count from 1970-01-01
(the standard civil-from-days algorithm). -/
def fromDays (z : Int) : Nat × Nat × Nat :=
  let zz : Int := z + 719468
  let era : Int := Int.fdiv zz 146097
  let doe : Int := zz - era * 146097
  let yoe : Int := Int.fdiv (doe - Int.fdiv doe 1460 + Int.fdiv doe 36524 - Int.fdiv doe 146096) 365
  let y0 : Int := yoe + era * 400
  let doy : Int := doe - (365 * yoe + Int.fdiv yoe 4 - Int.fdiv yoe 100)
  let mp : Int := Int.fdiv (5 * doy + 2) 153
  let d : Int := doy - Int.fdiv (153 * mp + 2) 5 + 1
  let m : Int := mp + (if mp < 10 then 3 else -9)
  let y : Int := y0 + (if m ≤ 2 then 1 else 0)
  (y.toNat, m.toNat, d.toNat)

/-- Day count of 0001-01-01, the lower bound of the representable range. -/
def epochDay1 : Int := toDays 1 1 1

/-- Seconds from 0001-01-01T00:00:00 to the given broken-down time.
A leap second (`second = 60`) normalizes into the next minute. -/
def toSecsAD (dt : DateTime) : Int :=
  (toDays dt.year dt.month dt.day - epochDay1) * 86400
    + ((dt.hour * 3600 + dt.minute * 60 + dt.second : Nat) : Int)

/-- Weekday of a proleptic-Gregorian date, 0 = Sunday through 6 = Saturday. -/
def weekdayOf (y m d : Nat) : Nat :=
  (Int.emod (toDays y m d + 4) 7).toNat

/-- Modelled from the spec: the local-time computation of
`TextUtils::GetLocalTime` (declared at Utils.h line 133).  The UTC
broken-down time is converted to an absolute second count (proleptic
Gregorian), the offset minutes are added, and the sum is re-decomposed,
normalizing calendar rollover in both directions; the result is `none`
(NON_REPRESENTABLE) when the local year leaves the range 1..9999. -/
def getLocalTime (off : Int) (dt : DateTime) : Option DateTime :=
  let t : Int := toSecsAD dt + off * 60
  if t < 0 then none
  else
    let n : Nat := t.toNat
    let days : Nat := n / 86400
    let sod : Nat := n % 86400
    let ymd := fromDays ((days : Int) + epochDay1)
    if 9999 < ymd.1 then none
    else some ⟨ymd.1, ymd.2.1, ymd.2.2, sod / 3600, sod % 3600 / 60, sod % 60⟩

/-! ## Locale resolution -/

/-- The locales with formatting data in the model: the fixed default
`en-US` and one further locale `fr-FR` exercising the language fallback. -/
inductive LocaleId
  | enUS
  | frFR
deriving DecidableEq, Repr

/-- Canonical BCP-47 tag of each known locale. -/
def localeTag : LocaleId → Str
  | LocaleId.enUS => ['e', 'n', '-', 'U', 'S']
  | LocaleId.frFR => ['f', 'r', '-', 'F', 'R']

/-- ASCII lowercase of one character. -/
def asciiLower (c : Char) : Char :=
  if 'A' ≤ c && c ≤ 'Z' then Char.ofNat (c.toNat + 32) else c

/-- Tag normalization: case-insensitive comparison with `_` accepted as a
subtag separator alongside `-`. -/
def normChar (c : Char) : Char :=
  if c = '_' then '-' else asciiLower c

/-- Normalized form of a language tag. -/
def normTag (t : Str) : Str := t.map normChar

/-- The primary-language subtag of a normalized tag. -/
def langSub (t : Str) : Str := t.takeWhile (fun c => c ≠ '-')

/-- The list of known locales, in resolution-preference order. -/
def knownLocales : List LocaleId := [LocaleId.enUS, LocaleId.frFR]

/-- Modelled from the spec: `TextUtils::GetValidCultureInfo` (declared at
Utils.h line 132).  Resolution order: exact match on the normalized tag,
then language-only fallback, then the fixed default `en-US`; comparison is
case-insensitive and accepts `-` or `_` as subtag separators, and unknown
tags never fail. -/
def getValidCultureInfo (lang : Str) : LocaleId :=
  match knownLocales.find? (fun loc => normTag (localeTag loc) == normTag lang) with
  | some loc => loc
  | none =>
    match knownLocales.find?
        (fun loc => langSub (normTag (localeTag loc)) == langSub (normTag lang)) with
    | some loc => loc
    | none => LocaleId.enUS

/-! ## Date and time formatting -/

/-- The two recognized text-function kinds. -/
inductive TKind
  | date
  | time
deriving DecidableEq, Repr

/-- The recognized DATE format specifiers. -/
inductive TSpec
  | short
  | long
  | compact
deriving DecidableEq, Repr

/-- Decimal digit character for a value below ten. -/
def digCh : Nat → Char
  | 0 => '0'
  | 1 => '1'
  | 2 => '2'
  | 3 => '3'
  | 4 => '4'
  | 5 => '5'
  | 6 => '6'
  | 7 => '7'
  | 8 => '8'
  | _ => '9'

/-- Decimal digit rendering, fueled for structural recursion (the fuel is an
upper bound on the number of digits; `natDigits` always supplies enough). -/
def natDigitsAux : Nat → Nat → Str
  | 0, _ => []
  | fuel + 1, n =>
    if n < 10 then [digCh n]
    else natDigitsAux fuel (n / 10) ++ [digCh (n % 10)]

/-- Decimal digit string of a natural number, without padding. -/
def natDigits (n : Nat) : Str := natDigitsAux (n + 1) n

/-- Decimal digit string, zero-padded to two places. -/
def pad2 (n : Nat) : Str :=
  if n < 10 then '0' :: natDigits n else natDigits n

/-- Hour on the 12-hour clock. -/
def hour12 (h : Nat) : Nat :=
  if h % 12 = 0 then 12 else h % 12

/-- Full English weekday names, 0 = Sunday. -/
def wdFullEn : Nat → Str
  | 0 => ('S' :: ('u' :: ('n' :: ('d' :: ('a' :: ['y'])))))
  | 1 => ['M', 'o', 'n', 'd', 'a', 'y']
  | 2 => ['T', 'u', 'e', 's', 'd', 'a', 'y']
  | 3 => ['W', 'e', 'd', 'n', 'e', 's', 'd', 'a', 'y']
  | 4 => ['T', 'h', 'u', 'r', 's', 'd', 'a', 'y']
  | 5 => ['F', 'r', 'i', 'd', 'a', 'y']
  | _ => ['S', 'a', 't', 'u', 'r', 'd', 'a', 'y']

/-- Abbreviated English weekday names, 0 = Sunday. -/
def wdAbbrevEn : Nat → Str
  | 0 => ['S', 'u', 'n']
  | 1 => ['M', 'o', 'n']
  | 2 => ['T', 'u', 'e']
  | 3 => ['W', 'e', 'd']
  | 4 => ['T', 'h', 'u']
  | 5 => ['F', 'r', 'i']
  | _ => ['S', 'a', 't']

/-- Full English month names, 1 = January. -/
def monFullEn : Nat → Str
  | 1 => ['J', 'a', 'n', 'u', 'a', 'r', 'y']
  | 2 => ['F', 'e', 'b', 'r', 'u', 'a', 'r', 'y']
  | 3 => ['M', 'a', 'r', 'c', 'h']
  | 4 => ['A', 'p', 'r', 'i', 'l']
  | 5 => ['M', 'a', 'y']
  | 6 => ['J', 'u', 'n', 'e']
  | 7 => ['J', 'u', 'l', 'y']
  | 8 => ['A', 'u', 'g', 'u', 's', 't']
  | 9 => ['S', 'e', 'p', 't', 'e', 'm', 'b', 'e', 'r']
  | 10 => ['O', 'c', 't', 'o', 'b', 'e', 'r']
  | 11 => ['N', 'o', 'v', 'e', 'm', 'b', 'e', 'r']
  | _ => ['D', 'e', 'c', 'e', 'm', 'b', 'e', 'r']

/-- Abbreviated English month names, 1 = January. -/
def monAbbrevEn : Nat → Str
  | 1 => ['J', 'a', 'n']
  | 2 => ['F', 'e', 'b']
  | 3 => ['M', 'a', 'r']
  | 4 => ['A', 'p', 'r']
  | 5 => ['M', 'a', 'y']
  | 6 => ['J', 'u', 'n']
  | 7 => ['J', 'u', 'l']
  | 8 => ['A', 'u', 'g']
  | 9 => ['S', 'e', 'p']
  | 10 => ['O', 'c', 't']
  | 11 => ['N', 'o', 'v']
  | _ => ['D', 'e', 'c']

/-- Full French weekday names, 0 = dimanche (Sunday). -/
def wdFullFr : Nat → Str
  | 0 => ['d', 'i', 'm', 'a', 'n', 'c', 'h', 'e']
  | 1 => ['l', 'u', 'n', 'd', 'i']
  | 2 => ['m', 'a', 'r', 'd', 'i']
  | 3 => ['m', 'e', 'r', 'c', 'r', 'e', 'd', 'i']
  | 4 => ['j', 'e', 'u', 'd', 'i']
  | 5 => ['v', 'e', 'n', 'd', 'r', 'e', 'd', 'i']
  | _ => ['s', 'a', 'm', 'e', 'd', 'i']

/-- Abbreviated French weekday names, 0 = dim. (Sunday). -/
def wdAbbrevFr : Nat → Str
  | 0 => ['d', 'i', 'm', '.']
  | 1 => ['l', 'u', 'n', '.']
  | 2 => ['m', 'a', 'r', '.']
  | 3 => ['m', 'e', 'r', '.']
  | 4 => ['j', 'e', 'u', '.']
  | 5 => ['v', 'e', 'n', '.']
  | _ => ['s', 'a', 'm', '.']

/-- Full French month names, 1 = janvier. -/
def monFullFr : Nat → Str
  | 1 => ['j', 'a', 'n', 'v', 'i', 'e', 'r']
  | 2 => ['f', 'é', 'v', 'r', 'i', 'e', 'r']
  | 3 => ['m', 'a', 'r', 's']
  | 4 => ['a', 'v', 'r', 'i', 'l']
  | 5 => ['m', 'a', 'i']
  | 6 => ['j', 'u', 'i', 'n']
  | 7 => ['j', 'u', 'i', 'l', 'l', 'e', 't']
  | 8 => ['a', 'o', 'û', 't']
  | 9 => ['s', 'e', 'p', 't', 'e', 'm', 'b', 'r', 'e']
  | 10 => ['o', 'c', 't', 'o', 'b', 'r', 'e']
  | 11 => ['n', 'o', 'v', 'e', 'm', 'b', 'r', 'e']
  | _ => ['d', 'é', 'c', 'e', 'm', 'b', 'r', 'e']

/-- Abbreviated French month names, 1 = janv. -/
def monAbbrevFr : Nat → Str
  | 1 => ['j', 'a', 'n', 'v', '.']
  | 2 => ['f', 'é', 'v', 'r', '.']
  | 3 => ['m', 'a', 'r', 's']
  | 4 => ['a', 'v', 'r', '.']
  | 5 => ['m', 'a', 'i']
  | 6 => ['j', 'u', 'i', 'n']
  | 7 => ['j', 'u', 'i', 'l', '.']
  | 8 => ['a', 'o', 'û', 't']
  | 9 => ['s', 'e', 'p', 't', '.']
  | 10 => ['o', 'c', 't', '.']
  | 11 => ['n', 'o', 'v', '.']
  | _ => ['d', 'é', 'c', '.']

/-- Modelled from the spec: the DATE formatter (section 4.5).  For `en-US`:
COMPACT (and an absent specifier) is the numeric short date `M/D/YYYY`,
SHORT is abbreviated weekday and month with unpadded day, LONG is the full
names.  For `fr-FR`: day precedes month, the numeric short date is
zero-padded `DD/MM/YYYY`. -/
def fmtDate : LocaleId → Option TSpec → Nat → Nat → Nat → Nat → Str
  | LocaleId.enUS, some TSpec.short, y, m, d, w =>
    wdAbbrevEn w ++ ',' :: ' ' :: (monAbbrevEn m ++ ' ' :: (natDigits d ++ ',' :: ' ' :: natDigits y))
  | LocaleId.enUS, some TSpec.long, y, m, d, w =>
    wdFullEn w ++ ',' :: ' ' :: (monFullEn m ++ ' ' :: (natDigits d ++ ',' :: ' ' :: natDigits y))
  | LocaleId.enUS, _, y, m, d, _ =>
    natDigits m ++ '/' :: (natDigits d ++ '/' :: natDigits y)
  | LocaleId.frFR, some TSpec.short, y, m, d, w =>
    wdAbbrevFr w ++ ' ' :: (natDigits d ++ ' ' :: (monAbbrevFr m ++ ' ' :: natDigits y))
  | LocaleId.frFR, some TSpec.long, y, m, d, w =>
    wdFullFr w ++ ' ' :: (natDigits d ++ ' ' :: (monFullFr m ++ ' ' :: natDigits y))
  | LocaleId.frFR, _, y, m, d, _ =>
    pad2 d ++ '/' :: (pad2 m ++ '/' :: natDigits y)

/-- Modelled from the spec: the TIME formatter (section 4.5), locale-short
time in the 12- or 24-hour convention of the locale: `en-US` uses the
12-hour clock with AM/PM, `fr-FR` the zero-padded 24-hour clock. -/
def fmtTime : LocaleId → Nat → Nat → Str
  | LocaleId.enUS, h, mi =>
    natDigits (hour12 h) ++ ':' :: (pad2 mi ++ ' ' :: (if h < 12 then ['A', 'M'] else ['P', 'M']))
  | LocaleId.frFR, h, mi =>
    pad2 h ++ ':' :: pad2 mi

/-! ## The text-function recognition grammar

Modelled from the spec (section 4.1): a call is an open marker of two brace
characters, a kind `DATE` or `TIME`, a parenthesized ISO-8601 timestamp with
mandatory timezone suffix, an optional `, ` followed by a specifier `SHORT`,
`LONG` or `COMPACT` before the closing parenthesis (as in every concrete
example of the spec), and the two-brace close marker. -/

/-- The timezone suffix of a timestamp: `Z` or a signed `HH:MM` pair. -/
inductive Tz
  | z
  | sgn (sg a b c d : Char)
deriving DecidableEq, Repr

/-- The characters of a timezone suffix. -/
def tzChars : Tz → Str
  | Tz.z => ['Z']
  | Tz.sgn sg a b c d => [sg, a, b, ':', c, d]

/-- Well-formedness of a timezone suffix: a sign character and four digits. -/
def tzWF : Tz → Bool
  | Tz.z => true
  | Tz.sgn sg a b c d =>
    (sg = '+' || sg = '-') && isDig a && isDig b && isDig c && isDig d

/-- The fourteen digit characters of a rigid ISO-8601 timestamp body. -/
structure TsF where
  y1 : Char
  y2 : Char
  y3 : Char
  y4 : Char
  m1 : Char
  m2 : Char
  d1 : Char
  d2 : Char
  h1 : Char
  h2 : Char
  n1 : Char
  n2 : Char
  s1 : Char
  s2 : Char
deriving DecidableEq, Repr

/-- The characters of a timestamp body `YYYY-MM-DDThh:mm:ss`. -/
def tsfChars (f : TsF) : Str :=
  [f.y1, f.y2, f.y3, f.y4, '-', f.m1, f.m2, '-', f.d1, f.d2, 'T',
   f.h1, f.h2, ':', f.n1, f.n2, ':', f.s1, f.s2]

/-- Well-formedness of a timestamp body: all fourteen characters are digits. -/
def tsfWF (f : TsF) : Bool :=
  isDig f.y1 && isDig f.y2 && isDig f.y3 && isDig f.y4 &&
  isDig f.m1 && isDig f.m2 && isDig f.d1 && isDig f.d2 &&
  isDig f.h1 && isDig f.h2 && isDig f.n1 && isDig f.n2 &&
  isDig f.s1 && isDig f.s2

/-- A syntactically recognized text-function call. -/
structure Call where
  kind : TKind
  ts : TsF
  tz : Tz
  sp : Option TSpec
deriving DecidableEq, Repr

/-- Well-formedness of a recognized call. -/
def Call.WF (c : Call) : Bool := tsfWF c.ts && tzWF c.tz

/-- The characters of a function kind. -/
def kindChars : TKind → Str
  | TKind.date => ['D', 'A', 'T', 'E']
  | TKind.time => ['T', 'I', 'M', 'E']

/-- The characters of a format specifier. -/
def specName : TSpec → Str
  | TSpec.short => ['S', 'H', 'O', 'R', 'T']
  | TSpec.long => ['L', 'O', 'N', 'G']
  | TSpec.compact => ['C', 'O', 'M', 'P', 'A', 'C', 'T']

/-- The characters contributed by an optional specifier (comma, space, name). -/
def specChars : Option TSpec → Str
  | none => []
  | some sp => ',' :: ' ' :: specName sp

/-- The full matched text of a recognized call. -/
def callChars (c : Call) : Str :=
  '\x7b' :: '\x7b' ::
    (kindChars c.kind ++ '(' ::
      (tsfChars c.ts ++ tzChars c.tz ++ specChars c.sp ++ [')', '\x7d', '\x7d']))

/-- Parse the kind name and its opening parenthesis. -/
def parseKindP : Str → Option (TKind × Str)
  | 'D' :: 'A' :: 'T' :: 'E' :: '(' :: r => some (TKind.date, r)
  | 'T' :: 'I' :: 'M' :: 'E' :: '(' :: r => some (TKind.time, r)
  | _ => none

/-- Parse the rigid timestamp body. -/
def parseTsf : Str → Option (TsF × Str)
  | y1 :: y2 :: y3 :: y4 :: '-' :: m1 :: m2 :: '-' :: d1 :: d2 :: 'T' ::
      h1 :: h2 :: ':' :: n1 :: n2 :: ':' :: s1 :: s2 :: r =>
    if tsfWF ⟨y1, y2, y3, y4, m1, m2, d1, d2, h1, h2, n1, n2, s1, s2⟩ then
      some (⟨y1, y2, y3, y4, m1, m2, d1, d2, h1, h2, n1, n2, s1, s2⟩, r)
    else none
  | _ => none

/-- Parse the timezone suffix. -/
def parseTzPart : Str → Option (Tz × Str)
  | 'Z' :: r => some (Tz.z, r)
  | sg :: a :: b :: ':' :: c :: d :: r =>
    if tzWF (Tz.sgn sg a b c d) then some (Tz.sgn sg a b c d, r) else none
  | _ => none

/-- Parse a specifier name followed by the closing `)` and brace pair. -/
def parseSpecName : Str → Option (Option TSpec × Str)
  | 'S' :: rest =>
    (match rest with
     | 'H' :: 'O' :: 'R' :: 'T' :: ')' :: '\x7d' :: '\x7d' :: r => some (some TSpec.short, r)
     | _ => none)
  | 'L' :: rest =>
    (match rest with
     | 'O' :: 'N' :: 'G' :: ')' :: '\x7d' :: '\x7d' :: r => some (some TSpec.long, r)
     | _ => none)
  | 'C' :: rest =>
    (match rest with
     | 'O' :: 'M' :: 'P' :: 'A' :: 'C' :: 'T' :: ')' :: '\x7d' :: '\x7d' :: r =>
       some (some TSpec.compact, r)
     | _ => none)
  | _ => none

/-- Parse the optional specifier and the closing `)` and brace pair. -/
def parseSpecEnd : Str → Option (Option TSpec × Str)
  | ')' :: '\x7d' :: '\x7d' :: r => some (none, r)
  | ',' :: ' ' :: rest => parseSpecName rest
  | _ => none

/-- Modelled from the spec: recognition of one text-function call at the head
of the input (the per-match work of `TextUtils::ApplyTextFunctions`, declared
at Utils.h line 131).  Returns the parsed call and the remaining input, or
`none` when no well-formed call starts here. -/
def tryMatchSyn : Str → Option (Call × Str)
  | '\x7b' :: '\x7b' :: r0 =>
    match parseKindP r0 with
    | none => none
    | some (k, r1) =>
      match parseTsf r1 with
      | none => none
      | some (f, r2) =>
        match parseTzPart r2 with
        | none => none
        | some (tz, r3) =>
          match parseSpecEnd r3 with
          | none => none
          | some (sp, r4) => some (⟨k, f, tz, sp⟩, r4)
  | _ => none

/-! ### Parser inversion and prefix stability -/

theorem parseKindP_eq {l : Str} {k : TKind} {r : Str} (h : parseKindP l = some (k, r)) :
    l = kindChars k ++ '(' :: r := by
  unfold parseKindP at h
  split at h
  · simp only [Option.some.injEq, Prod.mk.injEq] at h
    obtain ⟨rfl, rfl⟩ := h
    rfl
  · simp only [Option.some.injEq, Prod.mk.injEq] at h
    obtain ⟨rfl, rfl⟩ := h
    rfl
  · exact absurd h (by simp)

theorem parseKindP_pre (k : TKind) (x : Str) : parseKindP (kindChars k ++ '(' :: x) = some (k, x) := by
  cases k <;> rfl

theorem parseTsf_eq {l : Str} {f : TsF} {r : Str} (h : parseTsf l = some (f, r)) :
    l = tsfChars f ++ r ∧ tsfWF f = true := by
  unfold parseTsf at h
  split at h
  · split at h
    · simp_all [tsfChars]
      obtain ⟨rfl, rfl⟩ := h
      simp_all
    · exact absurd h (by simp)
  · exact absurd h (by simp)

theorem parseTsf_pre (f : TsF) (x : Str) (hw : tsfWF f = true) :
    parseTsf (tsfChars f ++ x) = some (f, x) := by
  obtain ⟨y1, y2, y3, y4, m1, m2, d1, d2, h1, h2, n1, n2, s1, s2⟩ := f
  simp [tsfChars, parseTsf, hw]

theorem parseTzPart_eq {l : Str} {tz : Tz} {r : Str} (h : parseTzPart l = some (tz, r)) :
    l = tzChars tz ++ r ∧ tzWF tz = true := by
  unfold parseTzPart at h
  split at h
  · simp only [Option.some.injEq, Prod.mk.injEq] at h
    obtain ⟨rfl, rfl⟩ := h
    exact ⟨rfl, rfl⟩
  · split at h
    · simp only [Option.some.injEq, Prod.mk.injEq] at h
      obtain ⟨rfl, rfl⟩ := h
      refine ⟨rfl, by assumption⟩
    · exact absurd h (by simp)
  · exact absurd h (by simp)

theorem parseTzPart_pre (tz : Tz) (x : Str) (hw : tzWF tz = true) :
    parseTzPart (tzChars tz ++ x) = some (tz, x) := by
  cases tz with
  | z => simp [tzChars, parseTzPart]
  | sgn sg a b c d =>
    have hsg : sg ≠ 'Z' := by
      simp [tzWF] at hw
      rcases hw.1 with h | h <;> simp [h]
    simp [tzChars, parseTzPart, hw, hsg]

theorem parseSpecName_eq {l : Str} {sp : Option TSpec} {r : Str}
    (h : parseSpecName l = some (sp, r)) :
    ∃ v, sp = some v ∧ l = specName v ++ ')' :: '\x7d' :: '\x7d' :: r := by
  unfold parseSpecName at h
  split at h
  · split at h
    · simp only [Option.some.injEq, Prod.mk.injEq] at h
      obtain ⟨rfl, rfl⟩ := h
      exact ⟨TSpec.short, rfl, rfl⟩
    · exact absurd h (by simp)
  · split at h
    · simp only [Option.some.injEq, Prod.mk.injEq] at h
      obtain ⟨rfl, rfl⟩ := h
      exact ⟨TSpec.long, rfl, rfl⟩
    · exact absurd h (by simp)
  · split at h
    · simp only [Option.some.injEq, Prod.mk.injEq] at h
      obtain ⟨rfl, rfl⟩ := h
      exact ⟨TSpec.compact, rfl, rfl⟩
    · exact absurd h (by simp)
  · exact absurd h (by simp)

theorem parseSpecEnd_eq {l : Str} {sp : Option TSpec} {r : Str}
    (h : parseSpecEnd l = some (sp, r)) :
    l = specChars sp ++ ')' :: '\x7d' :: '\x7d' :: r := by
  unfold parseSpecEnd at h
  split at h
  · simp only [Option.some.injEq, Prod.mk.injEq] at h
    obtain ⟨rfl, rfl⟩ := h
    rfl
  · obtain ⟨v, rfl, rfl⟩ := parseSpecName_eq h
    rfl
  · exact absurd h (by simp)

theorem parseSpecEnd_pre (sp : Option TSpec) (x : Str) :
    parseSpecEnd (specChars sp ++ ')' :: '\x7d' :: '\x7d' :: x) = some (sp, x) := by
  rcases sp with _ | sp
  · rfl
  · cases sp <;> rfl

theorem tryMatchSyn_eq {l : Str} {pc : Call} {r : Str} (h : tryMatchSyn l = some (pc, r)) :
    l = callChars pc ++ r ∧ Call.WF pc = true := by
  unfold tryMatchSyn at h
  split at h
  case _ r0 =>
    cases hk : parseKindP r0 with
    | none => rw [hk] at h; exact absurd h (by simp)
    | some kr =>
      obtain ⟨k, r1⟩ := kr
      rw [hk] at h
      dsimp only at h
      cases hf : parseTsf r1 with
      | none => rw [hf] at h; exact absurd h (by simp)
      | some fr =>
        obtain ⟨f, r2⟩ := fr
        rw [hf] at h
        dsimp only at h
        cases ht : parseTzPart r2 with
        | none => rw [ht] at h; exact absurd h (by simp)
        | some tr =>
          obtain ⟨tz, r3⟩ := tr
          rw [ht] at h
          dsimp only at h
          cases hs : parseSpecEnd r3 with
          | none => rw [hs] at h; exact absurd h (by simp)
          | some sr =>
            obtain ⟨sp, r4⟩ := sr
            rw [hs] at h
            simp at h
            obtain ⟨rfl, rfl⟩ := h
            have e1 := parseKindP_eq hk
            have e2 := parseTsf_eq hf
            have e3 := parseTzPart_eq ht
            have e4 := parseSpecEnd_eq hs
            constructor
            · rw [e1, e2.1, e3.1, e4]
              simp [callChars]
            · simp [Call.WF, e2.2, e3.2]
  case _ => exact absurd h (by simp)

theorem tryMatchSyn_pre (pc : Call) (x : Str) (hw : Call.WF pc = true) :
    tryMatchSyn (callChars pc ++ x) = some (pc, x) := by
  obtain ⟨k, f, tz, sp⟩ := pc
  simp only [Call.WF, Bool.and_eq_true] at hw
  have e : callChars ⟨k, f, tz, sp⟩ ++ x =
      '\x7b' :: '\x7b' ::
        (kindChars k ++ '(' ::
          (tsfChars f ++ (tzChars tz ++ (specChars sp ++ ')' :: '\x7d' :: '\x7d' :: x)))) := by
    simp [callChars]
  rw [e]
  simp only [tryMatchSyn, parseKindP_pre, parseTsf_pre f _ hw.1,
    parseTzPart_pre tz _ hw.2, parseSpecEnd_pre]

theorem tryMatchSyn_length {l : Str} {pc : Call} {r : Str}
    (h : tryMatchSyn l = some (pc, r)) : r.length < l.length := by
  obtain ⟨e, _⟩ := tryMatchSyn_eq h
  subst e
  simp [callChars]
  omega

theorem tryMatchSyn_head {l : Str} {pc : Call} {r : Str}
    (h : tryMatchSyn l = some (pc, r)) : ∃ u, l = '\x7b' :: '\x7b' :: u := by
  obtain ⟨e, _⟩ := tryMatchSyn_eq h
  subst e
  exact ⟨_, rfl⟩

theorem tryMatchSyn_not_brace {c : Char} {t : Str} (hc : c ≠ '\x7b') :
    tryMatchSyn (c :: t) = none := by
  cases h : tryMatchSyn (c :: t) with
  | none => rfl
  | some v =>
    obtain ⟨pc, r⟩ := v
    obtain ⟨u, hu⟩ := tryMatchSyn_head h
    injection hu with h1 h2
    exact absurd h1 hc

/-! ## Per-match evaluation -/

/-- Gregorian leap-year test. -/
def isLeap (y : Nat) : Bool :=
  (y % 4 == 0 && y % 100 != 0) || y % 400 == 0

/-- Length of a month in days. -/
def daysInMonth (y m : Nat) : Nat :=
  match m with
  | 2 => if isLeap y then 29 else 28
  | 4 => 30
  | 6 => 30
  | 9 => 30
  | 11 => 30
  | _ => 31

/-- The broken-down time denoted by the digit fields of a call. -/
def callDT (c : Call) : DateTime :=
  ⟨1000 * digVal c.ts.y1 + 100 * digVal c.ts.y2 + 10 * digVal c.ts.y3 + digVal c.ts.y4,
   10 * digVal c.ts.m1 + digVal c.ts.m2,
   10 * digVal c.ts.d1 + digVal c.ts.d2,
   10 * digVal c.ts.h1 + digVal c.ts.h2,
   10 * digVal c.ts.n1 + digVal c.ts.n2,
   10 * digVal c.ts.s1 + digVal c.ts.s2⟩

/-- Range validation of a parsed timestamp (a leap second is permitted on
input). -/
def validDT (dt : DateTime) : Bool :=
  1 ≤ dt.year && 1 ≤ dt.month && dt.month ≤ 12 && 1 ≤ dt.day &&
    dt.day ≤ daysInMonth dt.year dt.month && dt.hour ≤ 23 && dt.minute ≤ 59 && dt.second ≤ 60

/-- The validated broken-down time of a call (MALFORMED_TIMESTAMP on
failure). -/
def getValidDT (c : Call) : Option DateTime :=
  if validDT (callDT c) then some (callDT c) else none

/-- Modelled from the spec: evaluation of one recognized call (sections
4.2-4.5).  The timezone suffix is parsed (MALFORMED_OFFSET on range
failure), the timestamp fields are range-validated (MALFORMED_TIMESTAMP,
with a leap second permitted on input), the local broken-down time is
computed (NON_REPRESENTABLE when the year leaves 1..9999), and the result
is formatted for the locale; any failure yields `none`. -/
def evalCall (c : Call) (loc : LocaleId) : Option Str :=
  match parseTzOffset (tzChars c.tz) with
  | none => none
  | some off =>
    match getValidDT c with
    | none => none
    | some dt =>
      match getLocalTime off dt with
      | none => none
      | some lt =>
        some
          (match c.kind with
           | TKind.date => fmtDate loc c.sp lt.year lt.month lt.day (weekdayOf lt.year lt.month lt.day)
           | TKind.time => fmtTime loc lt.hour lt.minute)

/-! ## The dispatcher -/

/-- Modelled from the spec: the scanning loop of
`TextUtils::ApplyTextFunctions` (declared at Utils.h line 131).  The scan
moves left to right over the original text; at a recognized call the
formatted result is spliced in (or, when evaluation fails, the matched
substring is kept verbatim) and the scan resumes after the match; anywhere
else one character is copied. -/
def scanTextF (loc : LocaleId) : Nat → Str → Str
  | 0, _ => []
  | fuel + 1, s =>
    match tryMatchSyn s with
    | some (pc, rest) =>
      (match evalCall pc loc with
       | some r => r
       | none => callChars pc) ++ scanTextF loc fuel rest
    | none =>
      match s with
      | [] => []
      | c :: t => c :: scanTextF loc fuel t

def scanText (loc : LocaleId) (s : Str) : Str := scanTextF loc s.length s

/-- Modelled from the spec: `TextUtils::ApplyTextFunctions` (declared at
Utils.h line 131): resolve the locale from the language tag, then scan the
text. -/
def applyTextFunctions (text lang : Str) : Str :=
  scanText (getValidCultureInfo lang) text

/-- No occurrence of the two-character open marker anywhere in the string. -/
def noOpen : Str → Bool
  | [] => true
  | [_] => true
  | c1 :: c2 :: rest => !(c1 = '\x7b' && c2 = '\x7b') && noOpen (c2 :: rest)

theorem scanTextF_nil (loc : LocaleId) (fuel : Nat) : scanTextF loc fuel [] = [] := by
  cases fuel <;> rfl

theorem scanTextF_congr (loc : LocaleId) :
    ∀ f1 : Nat, ∀ {f2 : Nat} {s : Str}, s.length ≤ f1 → s.length ≤ f2 →
      scanTextF loc f1 s = scanTextF loc f2 s := by
  intro f1
  induction f1 with
  | zero =>
    intro f2 s h1 h2
    have : s = [] := by
      cases s with
      | nil => rfl
      | cons c t => simp at h1
    subst this
    rw [scanTextF_nil, scanTextF_nil]
  | succ f1 ih =>
    intro f2 s h1 h2
    cases s with
    | nil => rw [scanTextF_nil, scanTextF_nil]
    | cons c t =>
      have hf2 : ∃ f2p, f2 = f2p + 1 := by
        cases f2 with
        | zero => simp at h2
        | succ f2p => exact ⟨f2p, rfl⟩
      obtain ⟨f2p, rfl⟩ := hf2
      cases hm : tryMatchSyn (c :: t) with
      | some v =>
        obtain ⟨pc, rest⟩ := v
        have hlen := tryMatchSyn_length hm
        simp only [scanTextF, hm]
        congr 1
        exact ih (by simp at h1 hlen ⊢; omega) (by simp at h2 hlen ⊢; omega)
      | none =>
        simp only [scanTextF, hm]
        congr 1
        exact ih (by simp at h1 ⊢; omega) (by simp at h2 ⊢; omega)

theorem scanText_nil (loc : LocaleId) : scanText loc [] = [] := rfl

theorem scanText_match {s : Str} {pc : Call} {rest : Str} (loc : LocaleId)
    (h : tryMatchSyn s = some (pc, rest)) :
    scanText loc s =
      (match evalCall pc loc with
       | some r => r
       | none => callChars pc) ++ scanText loc rest := by
  have hlen := tryMatchSyn_length h
  obtain ⟨u, rfl⟩ := tryMatchSyn_head h
  unfold scanText
  simp only [List.length_cons]
  simp only [scanTextF, h]
  congr 1
  show scanTextF loc (u.length + 1) rest = scanTextF loc rest.length rest
  exact scanTextF_congr loc (u.length + 1) (by simp at hlen; omega) (le_refl _)

theorem scanText_live {s : Str} {pc : Call} {rest : Str} {r : Str} (loc : LocaleId)
    (h : tryMatchSyn s = some (pc, rest)) (he : evalCall pc loc = some r) :
    scanText loc s = r ++ scanText loc rest := by
  rw [scanText_match loc h, he]

theorem scanText_kept {s : Str} {pc : Call} {rest : Str} (loc : LocaleId)
    (h : tryMatchSyn s = some (pc, rest)) (he : evalCall pc loc = none) :
    scanText loc s = callChars pc ++ scanText loc rest := by
  rw [scanText_match loc h, he]

theorem scanText_step {c : Char} {t : Str} (loc : LocaleId)
    (h : tryMatchSyn (c :: t) = none) :
    scanText loc (c :: t) = c :: scanText loc t := by
  unfold scanText
  simp only [List.length_cons]
  simp only [scanTextF, h]

/-! ## Match-free text passes through unchanged -/

theorem noOpen_head {c : Char} {t : Str} (h : noOpen (c :: t) = true) :
    tryMatchSyn (c :: t) = none := by
  cases t with
  | nil =>
    cases hm : tryMatchSyn [c] with
    | none => rfl
    | some v =>
      obtain ⟨pc, r⟩ := v
      obtain ⟨u, hu⟩ := tryMatchSyn_head hm
      simp at hu
  | cons c2 t2 =>
    simp only [noOpen, Bool.and_eq_true, Bool.not_eq_true'] at h
    cases hm : tryMatchSyn (c :: c2 :: t2) with
    | none => rfl
    | some v =>
      obtain ⟨pc, r⟩ := v
      obtain ⟨u, hu⟩ := tryMatchSyn_head hm
      injection hu with h1 h2
      injection h2 with h2 _
      subst h1
      subst h2
      simp at h

theorem noOpen_tail {c : Char} {t : Str} (h : noOpen (c :: t) = true) :
    noOpen t = true := by
  cases t with
  | nil => rfl
  | cons c2 t2 =>
    simp only [noOpen, Bool.and_eq_true] at h
    exact h.2

/-! ## Claim theorems (part 1) -/

/-- C1: for every string `text` containing no occurrence of the double-brace
open marker and every language tag `lang`, `ApplyTextFunctions text lang`
returns `text` unchanged. -/
theorem claim_C1_matchfree_identity (text lang : Str) (h : noOpen text = true) :
    applyTextFunctions text lang = text := by
  unfold applyTextFunctions
  induction text with
  | nil => exact scanText_nil _
  | cons c t ih => rw [scanText_step _ (noOpen_head h), ih (noOpen_tail h)]

/-- Witness for C1 at a concrete match-free input (with a lone brace pair). -/
theorem claim_C1_matchfree_identity_witness :
    noOpen (("no functions \x7bhere\x7d").toList) = true ∧
    applyTextFunctions (("no functions \x7bhere\x7d").toList) (("en-US").toList) =
      ("no functions \x7bhere\x7d").toList :=
  ⟨by decide, claim_C1_matchfree_identity _ _ (by decide)⟩

/-- C2: `ApplyTextFunctions` never fails: it is a total function; a
recognized match whose evaluation fails (malformed timestamp, offset, or
non-representable year) leaves its original substring verbatim in the
output and processing continues with the rest of the input, and the spec's
concrete malformed example passes through unchanged. -/
theorem claim_C2_malformed_preserved :
    (∀ (text lang : Str) (pc : Call) (rest : Str),
      tryMatchSyn text = some (pc, rest) →
      evalCall pc (getValidCultureInfo lang) = none →
      applyTextFunctions text lang = callChars pc ++ applyTextFunctions rest lang) ∧
    applyTextFunctions (("\x7b\x7bDATE(not-a-date, SHORT)\x7d\x7d rest").toList)
        (("en-US").toList) =
      ("\x7b\x7bDATE(not-a-date, SHORT)\x7d\x7d rest").toList := by
  refine ⟨fun text lang pc rest h he => scanText_kept _ h he, ?_⟩
  decide

/-- Witness for C2: a syntactically recognized call with month 13 fails
evaluation and is preserved verbatim, with scanning continuing after it. -/
theorem claim_C2_malformed_preserved_witness :
    applyTextFunctions (("\x7b\x7bDATE(2017-13-01T00:00:00Z)\x7d\x7dy").toList)
        (("en-US").toList) =
      callChars ⟨TKind.date, ⟨'2', '0', '1', '7', '1', '3', '0', '1', '0', '0', '0', '0', '0', '0'⟩,
          Tz.z, none⟩ ++
        applyTextFunctions (("y").toList) (("en-US").toList) :=
  claim_C2_malformed_preserved.1 _ _ _ _ (by decide) (by decide)

/-! ## Segment decomposition of a scan (for the frame property) -/

/-- One segment of a scan: either text copied verbatim (single characters
and preserved failed matches), or a recognized call replaced by its
formatted result. -/
inductive Seg
  | keep (s : Str)
  | subst (pc : Call) (r : Str)
deriving DecidableEq, Repr

/-- The input bytes a segment covers. -/
def Seg.orig : Seg → Str
  | Seg.keep s => s
  | Seg.subst pc _ => callChars pc

/-- The output bytes a segment produces. -/
def Seg.out : Seg → Str
  | Seg.keep s => s
  | Seg.subst _ r => r

/-- The segment decomposition computed alongside `scanTextF`. -/
def scanSegsF (loc : LocaleId) : Nat → Str → List Seg
  | 0, _ => []
  | fuel + 1, s =>
    match tryMatchSyn s with
    | some (pc, rest) =>
      (match evalCall pc loc with
       | some r => Seg.subst pc r
       | none => Seg.keep (callChars pc)) :: scanSegsF loc fuel rest
    | none =>
      match s with
      | [] => []
      | c :: t => Seg.keep [c] :: scanSegsF loc fuel t

/-- The segment decomposition of a whole scan. -/
def scanSegs (loc : LocaleId) (s : Str) : List Seg := scanSegsF loc s.length s

theorem scanSegsF_nil (loc : LocaleId) (fuel : Nat) : scanSegsF loc fuel [] = [] := by
  cases fuel <;> rfl

theorem scanSegsF_orig (loc : LocaleId) :
    ∀ fuel : Nat, ∀ {s : Str}, s.length ≤ fuel →
      List.flatten ((scanSegsF loc fuel s).map Seg.orig) = s := by
  intro fuel
  induction fuel with
  | zero =>
    intro s h1
    have : s = [] := by
      cases s with
      | nil => rfl
      | cons c t => simp at h1
    subst this
    rw [scanSegsF_nil]
    rfl
  | succ fuel ih =>
    intro s h1
    cases s with
    | nil => rw [scanSegsF_nil]; rfl
    | cons c t =>
      cases hm : tryMatchSyn (c :: t) with
      | some v =>
        obtain ⟨pc, rest⟩ := v
        have hlen := tryMatchSyn_length hm
        obtain ⟨heq, _⟩ := tryMatchSyn_eq hm
        simp only [scanSegsF, hm, List.map_cons, List.flatten_cons]
        have horig : (match evalCall pc loc with
            | some r => Seg.subst pc r
            | none => Seg.keep (callChars pc)).orig = callChars pc := by
          cases evalCall pc loc <;> rfl
        rw [horig, ih (by simp at h1 hlen ⊢; omega), heq]
      | none =>
        simp only [scanSegsF, hm, List.map_cons, List.flatten_cons]
        rw [ih (by simp at h1 ⊢; omega)]
        rfl

theorem scanSegsF_out (loc : LocaleId) :
    ∀ (fuel : Nat) (s : Str),
      List.flatten ((scanSegsF loc fuel s).map Seg.out) = scanTextF loc fuel s := by
  intro fuel
  induction fuel with
  | zero => intro s; rfl
  | succ fuel ih =>
    intro s
    cases s with
    | nil => rw [scanSegsF_nil, scanTextF_nil]; rfl
    | cons c t =>
      cases hm : tryMatchSyn (c :: t) with
      | some v =>
        obtain ⟨pc, rest⟩ := v
        simp only [scanSegsF, scanTextF, hm, List.map_cons, List.flatten_cons]
        rw [ih]
        cases evalCall pc loc <;> rfl
      | none =>
        simp only [scanSegsF, scanTextF, hm, List.map_cons, List.flatten_cons]
        rw [ih]
        rfl

theorem scanSegsF_subst (loc : LocaleId) :
    ∀ (fuel : Nat) (s : Str) (pc : Call) (r : Str),
      Seg.subst pc r ∈ scanSegsF loc fuel s →
      Call.WF pc = true ∧ evalCall pc loc = some r := by
  intro fuel
  induction fuel with
  | zero => intro s pc r h; simp [scanSegsF] at h
  | succ fuel ih =>
    intro s pc r h
    cases s with
    | nil => rw [scanSegsF_nil] at h; simp at h
    | cons c t =>
      cases hm : tryMatchSyn (c :: t) with
      | some v =>
        obtain ⟨pc2, rest⟩ := v
        rw [scanSegsF, hm] at h
        simp only [List.mem_cons] at h
        rcases h with h | h
        · cases he : evalCall pc2 loc with
          | some r2 =>
            rw [he] at h
            injection h with h1 h2
            subst h1
            subst h2
            exact ⟨(tryMatchSyn_eq hm).2, he⟩
          | none =>
            rw [he] at h
            exact absurd h (by simp)
        · exact ih rest pc r h
      | none =>
        rw [scanSegsF, hm] at h
        cases t with
        | nil =>
          rw [scanSegsF_nil] at h
          simp at h
        | cons c2 t2 =>
          simp only [List.mem_cons] at h
          rcases h with h | h
          · exact absurd h (by simp)
          · exact ih _ pc r h

/-- C3: the output of `ApplyTextFunctions` differs from the input only in
the byte ranges covered by well-formed, recognized matches: the scan
decomposes the input into segments whose originals concatenate to the
input and whose outputs concatenate to the output; `keep` segments are
byte-for-byte unchanged, and every `subst` segment covers a well-formed
recognized call and carries its successful evaluation. -/
theorem claim_C3_frame (text lang : Str) :
    List.flatten ((scanSegs (getValidCultureInfo lang) text).map Seg.orig) = text ∧
    List.flatten ((scanSegs (getValidCultureInfo lang) text).map Seg.out) =
      applyTextFunctions text lang ∧
    (∀ s : Str, Seg.keep s ∈ scanSegs (getValidCultureInfo lang) text →
      (Seg.keep s).out = (Seg.keep s).orig) ∧
    (∀ (pc : Call) (r : Str), Seg.subst pc r ∈ scanSegs (getValidCultureInfo lang) text →
      Call.WF pc = true ∧ evalCall pc (getValidCultureInfo lang) = some r) :=
  ⟨scanSegsF_orig _ _ (le_refl _),
   scanSegsF_out _ _ _,
   fun _ _ => rfl,
   fun pc r h => scanSegsF_subst _ _ _ pc r h⟩

/-- Witness for C3 at a concrete input with one substituted match and one
kept character. -/
theorem claim_C3_frame_witness :
    Call.WF ⟨TKind.time, ⟨'2', '0', '1', '7', '0', '2', '1', '4', '0', '6', '0', '8', '0', '0'⟩,
        Tz.z, none⟩ = true ∧
    evalCall ⟨TKind.time, ⟨'2', '0', '1', '7', '0', '2', '1', '4', '0', '6', '0', '8', '0', '0'⟩,
        Tz.z, none⟩ (getValidCultureInfo (("en-US").toList)) = some (("6:08 AM").toList) :=
  (claim_C3_frame (("\x7b\x7bTIME(2017-02-14T06:08:00Z)\x7d\x7dx").toList)
    (("en-US").toList)).2.2.2 _ _ (by decide)

/-- C5: the timezone-offset parse succeeds exactly on `Z` (offset 0) and on
`+HH:MM` / `-HH:MM` with `HH ≤ 14`, `MM ≤ 59` and total absolute minutes at
most 14*60, and fails (MALFORMED_OFFSET) on every other suffix. -/
theorem claim_C5_tz_offset_charact (l : Str) (off : Int) :
    parseTzOffset l = some off ↔
      (l = ['Z'] ∧ off = 0) ∨
      (∃ sg a b c d, l = [sg, a, b, ':', c, d] ∧
        isDig a = true ∧ isDig b = true ∧ isDig c = true ∧ isDig d = true ∧
        10 * digVal a + digVal b ≤ 14 ∧ 10 * digVal c + digVal d ≤ 59 ∧
        (10 * digVal a + digVal b) * 60 + (10 * digVal c + digVal d) ≤ 14 * 60 ∧
        ((sg = '+' ∧
            off = (((10 * digVal a + digVal b) * 60 + (10 * digVal c + digVal d) : Nat) : Int)) ∨
         (sg = '-' ∧
            off = -(((10 * digVal a + digVal b) * 60 + (10 * digVal c + digVal d) : Nat) : Int)))) := by
  constructor
  · intro h
    unfold parseTzOffset at h
    split at h
    · left
      simp only [Option.some.injEq] at h
      exact ⟨rfl, h.symm⟩
    · right
      rename_i sg a b c d
      split at h
      · rename_i hguard
        dsimp only at h
        simp only [Bool.and_eq_true, decide_eq_true_eq, Bool.or_eq_true] at hguard
        cases hR : (decide (10 * digVal a + digVal b ≤ 14) &&
            decide (10 * digVal c + digVal d ≤ 59) &&
            decide ((10 * digVal a + digVal b) * 60 + (10 * digVal c + digVal d) ≤ 14 * 60)) with
        | false => rw [hR] at h; exact absurd h (by simp)
        | true =>
          rw [hR] at h
          simp only [if_true, Option.some.injEq] at h
          simp only [Bool.and_eq_true, decide_eq_true_eq] at hR
          refine ⟨sg, a, b, c, d, rfl, hguard.1.1.1.2, hguard.1.1.2, hguard.1.2, hguard.2,
            hR.1.1, hR.1.2, hR.2, ?_⟩
          rcases hguard.1.1.1.1 with hp | hm
          · left
            refine ⟨hp, ?_⟩
            rw [← h, if_pos hp]
          · right
            refine ⟨hm, ?_⟩
            have hne : sg ≠ '+' := by rw [hm]; decide
            rw [← h, if_neg hne]
      · exact absurd h (by simp)
    · exact absurd h (by simp)
  · intro h
    rcases h with ⟨rfl, rfl⟩ | ⟨sg, a, b, c, d, rfl, ha, hb, hc, hd, h14, h59, h840, hoff⟩
    · rfl
    · have hguard : ((sg = '+' || sg = '-') && isDig a && isDig b && isDig c && isDig d) = true := by
        rcases hoff with ⟨rfl, _⟩ | ⟨rfl, _⟩ <;> simp [ha, hb, hc, hd]
      have hrange : (decide (10 * digVal a + digVal b ≤ 14) &&
          decide (10 * digVal c + digVal d ≤ 59) &&
          decide ((10 * digVal a + digVal b) * 60 + (10 * digVal c + digVal d) ≤ 14 * 60)) = true := by
        simp only [Bool.and_eq_true, decide_eq_true_eq]
        exact ⟨⟨h14, h59⟩, h840⟩
      simp only [parseTzOffset, hguard, if_true]
      rw [hrange]
      simp only [if_true, Option.some.injEq]
      rcases hoff with ⟨rfl, rfl⟩ | ⟨rfl, rfl⟩
      · rw [if_pos rfl]
      · rw [if_neg (by decide)]

/-- Witness for C5: the accepted form side applied at `+05:30`. -/
theorem claim_C5_tz_offset_charact_witness :
    parseTzOffset ['+', '0', '5', ':', '3', '0'] = some 330 :=
  (claim_C5_tz_offset_charact ['+', '0', '5', ':', '3', '0'] 330).mpr
    (Or.inr ⟨'+', '0', '5', '3', '0', rfl, by decide, by decide, by decide,
      by decide, by decide, by decide, by decide, Or.inl ⟨rfl, by decide⟩⟩)

/-- C6: the offset application normalizes calendar rollover in both
directions and the weekday is recomputed: the UTC time 2023-01-01T00:30:00
with offset -60 minutes becomes 2022-12-31T23:30:00 (and the reverse offset
rolls forward across the year boundary); 2016-12-31 is a Saturday; the
spec's end-to-end example crossing a year boundary renders as
`Sat, Dec 31, 2016`. -/
theorem claim_C6_rollover :
    getLocalTime (-60) ⟨2023, 1, 1, 0, 30, 0⟩ = some ⟨2022, 12, 31, 23, 30, 0⟩ ∧
    getLocalTime 60 ⟨2022, 12, 31, 23, 30, 0⟩ = some ⟨2023, 1, 1, 0, 30, 0⟩ ∧
    weekdayOf 2016 12 31 = 6 ∧
    applyTextFunctions (("\x7b\x7bDATE(2017-01-01T00:30:00-01:00, SHORT)\x7d\x7d").toList)
        (("en-US").toList) =
      ("Sat, Dec 31, 2016").toList := by
  refine ⟨by decide, by decide, by decide, by decide⟩

/-- C7: locale resolution is total (always lands in the known-locale table),
factors through tag normalization (hence case-insensitive and insensitive to
`-` versus `_` as separators), resolves an exact normalized match when one
exists, otherwise a language-only match when one exists, and otherwise the
fixed default `en-US`; concrete lookups exercise every branch. -/
theorem claim_C7_culture_resolution :
    (∀ lang : Str, getValidCultureInfo lang ∈ knownLocales) ∧
    (∀ lang1 lang2 : Str, normTag lang1 = normTag lang2 →
      getValidCultureInfo lang1 = getValidCultureInfo lang2) ∧
    (∀ lang : Str, (∃ loc ∈ knownLocales, normTag (localeTag loc) = normTag lang) →
      normTag (localeTag (getValidCultureInfo lang)) = normTag lang) ∧
    (∀ lang : Str, (¬ ∃ loc ∈ knownLocales, normTag (localeTag loc) = normTag lang) →
      (∃ loc ∈ knownLocales, langSub (normTag (localeTag loc)) = langSub (normTag lang)) →
      langSub (normTag (localeTag (getValidCultureInfo lang))) = langSub (normTag lang)) ∧
    (∀ lang : Str, (¬ ∃ loc ∈ knownLocales, normTag (localeTag loc) = normTag lang) →
      (¬ ∃ loc ∈ knownLocales, langSub (normTag (localeTag loc)) = langSub (normTag lang)) →
      getValidCultureInfo lang = LocaleId.enUS) ∧
    getValidCultureInfo (("EN_us").toList) = LocaleId.enUS ∧
    getValidCultureInfo (("fr-CA").toList) = LocaleId.frFR ∧
    getValidCultureInfo (("zh-Hans").toList) = LocaleId.enUS ∧
    getValidCultureInfo [] = LocaleId.enUS := by
  refine ⟨?_, ?_, ?_, ?_, ?_, by decide, by decide, by decide, by decide⟩
  · intro lang
    unfold getValidCultureInfo
    split
    · next loc heq => exact List.mem_of_find?_eq_some heq
    · split
      · next loc heq => exact List.mem_of_find?_eq_some heq
      · exact by decide
  · intro lang1 lang2 hn
    unfold getValidCultureInfo
    rw [hn]
  · intro lang hex
    unfold getValidCultureInfo
    split
    · next loc heq =>
      have := List.find?_some heq
      simpa using this
    · next heq =>
      obtain ⟨loc, hmem, hloc⟩ := hex
      have : knownLocales.find? (fun l => normTag (localeTag l) == normTag lang) ≠ none := by
        intro hnone
        have := List.find?_eq_none.mp hnone loc hmem
        simp [hloc] at this
      exact absurd heq this
  · intro lang hnex hex
    unfold getValidCultureInfo
    split
    · next loc heq =>
      exfalso
      apply hnex
      refine ⟨loc, List.mem_of_find?_eq_some heq, ?_⟩
      have := List.find?_some heq
      simpa using this
    · split
      · next loc heq =>
        have := List.find?_some heq
        simpa using this
      · next heq =>
        exfalso
        obtain ⟨loc, hmem, hloc⟩ := hex
        have := List.find?_eq_none.mp heq loc hmem
        simp [hloc] at this
  · intro lang hnex hnlang
    unfold getValidCultureInfo
    split
    · next loc heq =>
      exfalso
      apply hnex
      refine ⟨loc, List.mem_of_find?_eq_some heq, ?_⟩
      have := List.find?_some heq
      simpa using this
    · split
      · next loc heq =>
        exfalso
        apply hnlang
        refine ⟨loc, List.mem_of_find?_eq_some heq, ?_⟩
        have := List.find?_some heq
        simpa using this
      · rfl

/-- Witness for C7: the quantified parts applied at concrete tags. -/
theorem claim_C7_culture_resolution_witness :
    getValidCultureInfo (("FR_fr").toList) = getValidCultureInfo (("fr-FR").toList) ∧
    normTag (localeTag (getValidCultureInfo (("fr-FR").toList))) = normTag (("fr-FR").toList) ∧
    getValidCultureInfo (("xx-YY").toList) = LocaleId.enUS :=
  ⟨claim_C7_culture_resolution.2.1 _ _ (by decide),
   claim_C7_culture_resolution.2.2.1 _ ⟨LocaleId.frFR, by decide, by decide⟩,
   claim_C7_culture_resolution.2.2.2.2.1 _ (by decide) (by decide)⟩

/-- C8 counterexample: the escape-scan prescribed by the spec maps
`a,b,,c` to `["a", "b,c"]` (the doubled comma escapes a literal comma), not
to `["a", "b", "c"]` as the claim states. -/
theorem claim_C8_counterexample :
    parseChoiceSetInputDefaultValues (("a,b,,c").toList) =
        [("a").toList, ("b,c").toList] ∧
    parseChoiceSetInputDefaultValues (("a,b,,c").toList) ≠
        [("a").toList, ("b").toList, ("c").toList] := by
  refine ⟨by decide, by decide⟩

/-- C8 amended: the split never yields an empty token, order is preserved,
`a,b,,c` maps to `["a", "b,c"]` and `a,,b` to `["a,b"]`. -/
theorem claim_C8_amended :
    (∀ value : Str, ∀ t ∈ parseChoiceSetInputDefaultValues value, t ≠ []) ∧
    parseChoiceSetInputDefaultValues (("b,a,c").toList) =
        [("b").toList, ("a").toList, ("c").toList] ∧
    parseChoiceSetInputDefaultValues (("a,b,,c").toList) =
        [("a").toList, ("b,c").toList] ∧
    parseChoiceSetInputDefaultValues (("a,,b").toList) = [("a,b").toList] := by
  refine ⟨?_, by decide, by decide, by decide⟩
  intro value t ht
  have hmem := List.of_mem_filter ht
  simpa using hmem

/-- Witness for C8 amended: the no-empty-token part at a concrete split. -/
theorem claim_C8_amended_witness : (("a").toList : Str) ≠ [] :=
  claim_C8_amended.1 (("a,b").toList) (("a").toList) (by decide)

/-- C9 counterexample: `Checkbox::type` (Utils.h line 19), `ChoiceSet::style`
(line 60) and `ChoiceSet::choices` (line 62) are not `const`-qualified, and
the permitted assignment to `type` changes the constructed object. -/
theorem claim_C9_counterexample :
    checkboxFieldIsConst CheckboxField.type = false ∧
    choiceSetFieldIsConst ChoiceSetField.style = false ∧
    choiceSetFieldIsConst ChoiceSetField.choices = false ∧
    (Checkbox.mkShort [] CheckBoxType.Toggle [] [] 0 false false false).setType
        CheckBoxType.RadioButton ≠
      Checkbox.mkShort [] CheckBoxType.Toggle [] [] 0 false false false := by
  refine ⟨rfl, rfl, rfl, by decide⟩

/-- C9 amended: every field of `Checkbox` except `type`, and every field of
`ChoiceSet` except `style` and `choices`, is `const`-qualified and hence
read-only after construction; the permitted assignments to the three
non-`const` fields change no other field. -/
theorem claim_C9_amended :
    (∀ f : CheckboxField, f ≠ CheckboxField.type → checkboxFieldIsConst f = true) ∧
    (∀ g : ChoiceSetField, g ≠ ChoiceSetField.style → g ≠ ChoiceSetField.choices →
      choiceSetFieldIsConst g = true) ∧
    (∀ (cb : Checkbox) (t : CheckBoxType),
      (cb.setType t).id = cb.id ∧ (cb.setType t).text = cb.text ∧
      (cb.setType t).value = cb.value ∧ (cb.setType t).valueOn = cb.valueOn ∧
      (cb.setType t).valueOff = cb.valueOff ∧ (cb.setType t).fontSize = cb.fontSize ∧
      (cb.setType t).isWrap = cb.isWrap ∧ (cb.setType t).isVisible = cb.isVisible ∧
      (cb.setType t).isChecked = cb.isChecked) ∧
    (∀ (cs : ChoiceSet) (st : ChoiceSetStyle) (chs : List Checkbox),
      (cs.setStyle st).id = cs.id ∧ (cs.setStyle st).isMultiSelect = cs.isMultiSelect ∧
      (cs.setStyle st).values = cs.values ∧ (cs.setStyle st).choices = cs.choices ∧
      (cs.setStyle st).placeholder = cs.placeholder ∧
      (cs.setChoices chs).id = cs.id ∧ (cs.setChoices chs).isMultiSelect = cs.isMultiSelect ∧
      (cs.setChoices chs).style = cs.style ∧ (cs.setChoices chs).values = cs.values ∧
      (cs.setChoices chs).placeholder = cs.placeholder) := by
  refine ⟨?_, ?_, ?_, ?_⟩
  · intro f hf
    cases f <;> first | rfl | exact absurd rfl hf
  · intro g hg1 hg2
    cases g <;> first | rfl | exact absurd rfl hg1 | exact absurd rfl hg2
  · intro cb t
    exact ⟨rfl, rfl, rfl, rfl, rfl, rfl, rfl, rfl, rfl⟩
  · intro cs st chs
    exact ⟨rfl, rfl, rfl, rfl, rfl, rfl, rfl, rfl, rfl, rfl⟩

/-- Witness for C9 amended: the const-table parts at concrete fields. -/
theorem claim_C9_amended_witness :
    checkboxFieldIsConst CheckboxField.valueOn = true ∧
    choiceSetFieldIsConst ChoiceSetField.values = true :=
  ⟨claim_C9_amended.1 CheckboxField.valueOn (by decide),
   claim_C9_amended.2.1 ChoiceSetField.values (by decide) (by decide)⟩

/-- C10: the short-form `Checkbox` constructor leaves `valueOn` and
`valueOff` default-initialized to the empty string, for every argument list
(in particular they are not mirrored from `value`). -/
theorem claim_C10_short_ctor_defaults (id : Str) (ty : CheckBoxType) (text value : Str)
    (fontSize : Int) (isWrap isVisible isChecked : Bool) :
    (Checkbox.mkShort id ty text value fontSize isWrap isVisible isChecked).valueOn = [] ∧
    (Checkbox.mkShort id ty text value fontSize isWrap isVisible isChecked).valueOff = [] :=
  ⟨rfl, rfl⟩

/-! ## Idempotence: counterexample machinery

A substitution result can complete surrounding text into a new recognized
call: with the 24-hour `fr-FR` time format, substituting an inner TIME call
inside what will become a DATE argument produces a valid timestamp on the
second pass. -/

/-- The counterexample input: a DATE call whose timestamp middle is an
embedded TIME call; the first pass replaces the inner call with `06:08`,
yielding a well-formed DATE call that the second pass then evaluates. -/
def idemCex : Str :=
  ("\x7b\x7bDATE(2017-02-14T\x7b\x7bTIME(2017-02-14T06:08:00Z)\x7d\x7d:00Z)\x7d\x7d").toList

/-- C4 counterexample: `ApplyTextFunctions` is not idempotent: on `idemCex`
with language `fr-FR` the first pass yields a recognized DATE call, which
the second pass replaces again. -/
theorem claim_C4_counterexample :
    applyTextFunctions (applyTextFunctions idemCex (("fr-FR").toList)) (("fr-FR").toList) ≠
      applyTextFunctions idemCex (("fr-FR").toList) ∧
    applyTextFunctions idemCex (("fr-FR").toList) =
      ("\x7b\x7bDATE(2017-02-14T06:08:00Z)\x7d\x7d").toList ∧
    applyTextFunctions (applyTextFunctions idemCex (("fr-FR").toList)) (("fr-FR").toList) =
      ("14/02/2017").toList := by
  refine ⟨by decide, by decide, by decide⟩

/-! ## Idempotence for the default locale

`Stable loc s` says that the scan of `s` retraces `s` verbatim: every
suffix the traversal visits either copies one character or re-recognizes a
preserved match whose evaluation fails again. -/

inductive Stable (loc : LocaleId) : Str → Prop
  | nil : Stable loc []
  | step (c : Char) (t : Str) : tryMatchSyn (c :: t) = none → Stable loc t →
      Stable loc (c :: t)
  | kept (pc : Call) (rest : Str) : Call.WF pc = true → evalCall pc loc = none →
      Stable loc rest → Stable loc (callChars pc ++ rest)

theorem Stable.scan_fix {loc : LocaleId} {s : Str} (h : Stable loc s) :
    scanText loc s = s := by
  induction h with
  | nil => exact scanText_nil loc
  | step c t hnone _ ih => rw [scanText_step loc hnone, ih]
  | kept pc rest hwf heval _ ih =>
    rw [scanText_kept loc (tryMatchSyn_pre pc rest hwf) heval, ih]

theorem Stable.prepend {loc : LocaleId} (r : Str) (hr : ∀ c ∈ r, c ≠ '\x7b')
    {x : Str} (h : Stable loc x) : Stable loc (r ++ x) := by
  induction r with
  | nil => exact h
  | cons a r2 ih =>
    exact Stable.step a (r2 ++ x)
      (tryMatchSyn_not_brace (hr a (by simp)))
      (ih (fun c hc => hr c (by simp [hc])))

/-- Every scan output is the input with a (possibly empty) leading verbatim
part followed, at the first substitution the traversal performs, by the
formatted result and the scan of the remainder. -/
theorem scanText_split (loc : LocaleId) :
    ∀ (n : Nat) (t : Str), t.length ≤ n →
      scanText loc t = t ∨
      ∃ (v : Str) (pc : Call) (u : Str) (r : Str),
        t = v ++ (callChars pc ++ u) ∧
        scanText loc t = v ++ (r ++ scanText loc u) ∧
        Call.WF pc = true ∧ evalCall pc loc = some r := by
  intro n
  induction n with
  | zero =>
    intro t ht
    left
    have : t = [] := by
      cases t with
      | nil => rfl
      | cons c t2 => simp at ht
    subst this
    exact scanText_nil loc
  | succ n ih =>
    intro t ht
    cases t with
    | nil => left; exact scanText_nil loc
    | cons c t2 =>
      cases hm : tryMatchSyn (c :: t2) with
      | none =>
        rcases ih t2 (by simp at ht; omega) with h | ⟨v, pc, u, r, he1, he2, hwf, hev⟩
        · left
          rw [scanText_step loc hm, h]
        · right
          refine ⟨c :: v, pc, u, r, by rw [he1]; rfl, ?_, hwf, hev⟩
          rw [scanText_step loc hm, he2]
          rfl
      | some val =>
        obtain ⟨pc, rest⟩ := val
        have hlen := tryMatchSyn_length hm
        obtain ⟨heq, hwf⟩ := tryMatchSyn_eq hm
        cases hev : evalCall pc loc with
        | some r =>
          right
          refine ⟨[], pc, rest, r, by simpa using heq, ?_, hwf, hev⟩
          rw [scanText_live loc hm hev]
          rfl
        | none =>
          have hrest : rest.length ≤ n := by
            simp at ht
            simp at hlen
            omega
          rcases ih rest hrest with h | ⟨v, pc2, u, r, he1, he2, hwf2, hev2⟩
          · left
            rw [scanText_kept loc hm hev, h, ← heq]
          · right
            refine ⟨callChars pc ++ v, pc2, u, r, ?_, ?_, hwf2, hev2⟩
            · rw [heq, he1]
              simp
            · rw [scanText_kept loc hm hev, he2]
              simp

/-! ## Characters and adjacent pairs of a recognized call -/

/-- The characters that can occur anywhere in a recognized call. -/
def callCharSet (c : Char) : Bool :=
  isDig c ||
    c ∈ ['\x7b', '\x7d', '(', ')', ',', ' ', '-', ':', '+', 'Z',
      'D', 'A', 'T', 'E', 'I', 'M', 'S', 'H', 'O', 'R', 'L', 'N', 'G', 'C', 'P']

theorem isDig_class {c : Char} (h : isDig c = true) : callCharSet c = true := by
  simp [callCharSet, h]

/-- The list of adjacent character pairs of a string. -/
def pairsOf : Str → List (Char × Char)
  | [] => []
  | [_] => []
  | a :: b :: rest => (a, b) :: pairsOf (b :: rest)

theorem pairsOf_sub_cons (a : Char) (l : Str) : pairsOf l ⊆ pairsOf (a :: l) := by
  cases l with
  | nil => simp [pairsOf]
  | cons b rest =>
    intro p hp
    simp only [pairsOf, List.mem_cons]
    exact Or.inr hp

theorem pairsOf_append_left : ∀ (x y : Str), pairsOf x ⊆ pairsOf (x ++ y) := by
  intro x
  induction x with
  | nil => intro y q hq; simp [pairsOf] at hq
  | cons a x2 ih =>
    intro y p hp
    cases x2 with
    | nil => simp [pairsOf] at hp
    | cons b rest =>
      simp only [pairsOf, List.mem_cons] at hp
      rcases hp with rfl | hp
      · simp [List.cons_append, pairsOf]
      · have := ih y hp
        simp only [List.cons_append, pairsOf, List.mem_cons]
        right
        simpa using this

theorem pairsOf_append_right : ∀ (x y : Str), pairsOf y ⊆ pairsOf (x ++ y) := by
  intro x
  induction x with
  | nil => intro y p hp; simpa using hp
  | cons a x2 ih =>
    intro y p hp
    have := ih y hp
    simpa using pairsOf_sub_cons a (x2 ++ y) this

theorem pairsOf_infix {r : Str} (a b : Str) : pairsOf r ⊆ pairsOf (a ++ (r ++ b)) :=
  fun _ hp => pairsOf_append_right a (r ++ b) (pairsOf_append_left r b hp)

/-! ### Character classes of the call segments -/

theorem kindChars_class (k : TKind) : ∀ ch ∈ kindChars k, callCharSet ch = true := by
  cases k <;> decide

theorem specChars_class (sp : Option TSpec) : ∀ ch ∈ specChars sp, callCharSet ch = true := by
  rcases sp with _ | sp
  · simp [specChars]
  · cases sp <;> decide

theorem tsfChars_class {f : TsF} (hw : tsfWF f = true) :
    ∀ ch ∈ tsfChars f, callCharSet ch = true := by
  obtain ⟨y1, y2, y3, y4, m1, m2, d1, d2, h1, h2, n1, n2, s1, s2⟩ := f
  simp only [tsfWF, Bool.and_eq_true] at hw
  obtain ⟨⟨⟨⟨⟨⟨⟨⟨⟨⟨⟨⟨⟨hy1, hy2⟩, hy3⟩, hy4⟩, hm1⟩, hm2⟩, hd1⟩, hd2⟩, hh1⟩,
    hh2⟩, hn1⟩, hn2⟩, hs1⟩, hs2⟩ := hw
  intro ch hch
  simp only [tsfChars, List.mem_cons, List.not_mem_nil, or_false] at hch
  rcases hch with rfl|rfl|rfl|rfl|rfl|rfl|rfl|rfl|rfl|rfl|rfl|rfl|rfl|rfl|rfl|rfl|rfl|rfl|rfl
  all_goals first | decide | (apply isDig_class; assumption)

theorem tzChars_class {tz : Tz} (hw : tzWF tz = true) :
    ∀ ch ∈ tzChars tz, callCharSet ch = true := by
  cases tz with
  | z => intro ch hch; simp [tzChars] at hch; subst hch; decide
  | sgn sg a b c d =>
    simp only [tzWF, Bool.and_eq_true, Bool.or_eq_true, decide_eq_true_eq] at hw
    obtain ⟨⟨⟨⟨hsg, ha⟩, hb⟩, hc⟩, hd⟩ := hw
    intro ch hch
    simp only [tzChars, List.mem_cons, List.not_mem_nil, or_false] at hch
    rcases hch with rfl|rfl|rfl|rfl|rfl|rfl
    · rcases hsg with rfl | rfl <;> decide
    · exact isDig_class ha
    · exact isDig_class hb
    · decide
    · exact isDig_class hc
    · exact isDig_class hd

theorem callChars_class {pc : Call} (hw : Call.WF pc = true) :
    ∀ ch ∈ callChars pc, callCharSet ch = true := by
  obtain ⟨hts, htz⟩ : tsfWF pc.ts = true ∧ tzWF pc.tz = true := by
    simpa [Call.WF] using hw
  intro ch hch
  simp only [callChars, List.mem_cons, List.mem_append, List.not_mem_nil, or_false] at hch
  casesm* _ ∨ _
  all_goals
    first
    | (subst_vars; decide)
    | exact kindChars_class _ ch (by assumption)
    | exact tsfChars_class hts ch (by assumption)
    | exact tzChars_class htz ch (by assumption)
    | exact specChars_class _ ch (by assumption)

/-- A space is never preceded by anything but a comma inside a recognized
call: the only space a call can contain is the one of the `, ` separator
before a specifier. -/
theorem space_refute {c : Char} (h : isDig c = true) : (' ' = c) = False :=
  eq_false (fun he => by rw [← he] at h; exact absurd h (by decide))

theorem callChars_space {pc : Call} (hw : Call.WF pc = true) :
    ∀ x : Char, (x, ' ') ∈ pairsOf (callChars pc) → x = ',' := by
  obtain ⟨k, f, tz, sp⟩ := pc
  obtain ⟨y1, y2, y3, y4, m1, m2, d1, d2, h1, h2, n1, n2, s1, s2⟩ := f
  simp only [Call.WF, tsfWF, Bool.and_eq_true] at hw
  obtain ⟨⟨⟨⟨⟨⟨⟨⟨⟨⟨⟨⟨⟨⟨hy1, hy2⟩, hy3⟩, hy4⟩, hm1⟩, hm2⟩, hd1⟩, hd2⟩, hh1⟩,
    hh2⟩, hn1⟩, hn2⟩, hs1⟩, hs2⟩, htz⟩ := hw
  have ey1 := space_refute hy1
  have ey2 := space_refute hy2
  have ey3 := space_refute hy3
  have ey4 := space_refute hy4
  have em1 := space_refute hm1
  have em2 := space_refute hm2
  have ed1 := space_refute hd1
  have ed2 := space_refute hd2
  have eh1 := space_refute hh1
  have eh2 := space_refute hh2
  have en1 := space_refute hn1
  have en2 := space_refute hn2
  have es1 := space_refute hs1
  have es2 := space_refute hs2
  intro x hx
  cases tz with
  | z =>
    cases k <;> rcases sp with _ | (_ | _ | _) <;>
      simp [callChars, kindChars, tsfChars, tzChars, specChars, specName, pairsOf,
        ey1, ey2, ey3, ey4, em1, em2, ed1, ed2, eh1, eh2, en1, en2, es1, es2] at hx <;>
      all_goals exact hx
  | sgn sg a b c d =>
    simp only [tzWF, Bool.and_eq_true, Bool.or_eq_true, decide_eq_true_eq] at htz
    obtain ⟨⟨⟨⟨hsg, ha⟩, hb⟩, hc⟩, hd⟩ := htz
    have ea := space_refute ha
    have eb := space_refute hb
    have ec := space_refute hc
    have edd := space_refute hd
    have esg : (' ' = sg) = False := by
      rcases hsg with rfl | rfl <;> decide
    cases k <;> rcases sp with _ | (_ | _ | _) <;>
      simp [callChars, kindChars, tsfChars, tzChars, specChars, specName, pairsOf,
        ey1, ey2, ey3, ey4, em1, em2, ed1, ed2, eh1, eh2, en1, en2, es1, es2,
        ea, eb, ec, edd, esg] at hx <;>
      all_goals exact hx

/-! ## Safe replacement strings -/

/-- A replacement string is safe when it contains no brace characters and
can never occur as a contiguous substring of any well-formed recognized
call. -/
structure SafeRepl (r : Str) : Prop where
  noBrace : ∀ c ∈ r, c ≠ '\x7b' ∧ c ≠ '\x7d'
  notSub : ∀ (pc : Call) (a b : Str), Call.WF pc = true → callChars pc ≠ a ++ (r ++ b)

theorem notSub_of_badChar {r : Str} (ch : Char) (hch : ch ∈ r)
    (hbad : callCharSet ch = false) :
    ∀ (pc : Call) (a b : Str), Call.WF pc = true → callChars pc ≠ a ++ (r ++ b) := by
  intro pc a b hwf heq
  have hmem : ch ∈ callChars pc := by
    rw [heq]
    simp [hch]
  have := callChars_class hwf ch hmem
  rw [hbad] at this
  exact absurd this (by simp)

theorem notSub_of_spacePair {r : Str} (x : Char) (hp : (x, ' ') ∈ pairsOf r)
    (hx : x ≠ ',') :
    ∀ (pc : Call) (a b : Str), Call.WF pc = true → callChars pc ≠ a ++ (r ++ b) := by
  intro pc a b hwf heq
  have : (x, ' ') ∈ pairsOf (callChars pc) := by
    rw [heq]
    exact pairsOf_infix a b hp
  exact hx (callChars_space hwf x this)

/-! ### Digit strings -/

theorem digCh_isDig : ∀ n : Nat, isDig (digCh n) = true := by
  intro n
  rcases n with _|_|_|_|_|_|_|_|_|_|n <;> rfl

theorem natDigitsAux_digits : ∀ fuel n : Nat, ∀ c ∈ natDigitsAux fuel n, isDig c = true := by
  intro fuel
  induction fuel with
  | zero => intro n c hc; simp [natDigitsAux] at hc
  | succ fuel ih =>
    intro n c hc
    simp only [natDigitsAux] at hc
    split at hc
    · simp at hc
      subst hc
      exact digCh_isDig n
    · simp only [List.mem_append, List.mem_singleton] at hc
      rcases hc with hc | rfl
      · exact ih _ c hc
      · exact digCh_isDig _

theorem natDigits_digits (n : Nat) : ∀ c ∈ natDigits n, isDig c = true :=
  natDigitsAux_digits _ n

theorem natDigits_ne_nil (n : Nat) : natDigits n ≠ [] := by
  unfold natDigits natDigitsAux
  split <;> simp

theorem pad2_digits (n : Nat) : ∀ c ∈ pad2 n, isDig c = true := by
  unfold pad2
  split
  · intro c hc
    simp only [List.mem_cons] at hc
    rcases hc with rfl | hc
    · rfl
    · exact natDigits_digits n c hc
  · exact natDigits_digits n

theorem pad2_ne_nil (n : Nat) : pad2 n ≠ [] := by
  unfold pad2
  split
  · simp
  · exact natDigits_ne_nil n

theorem isDig_not_brace {c : Char} (h : isDig c = true) : c ≠ '\x7b' ∧ c ≠ '\x7d' := by
  constructor <;> intro he <;> rw [he] at h <;> exact absurd h (by decide)

theorem isDig_ne_comma {c : Char} (h : isDig c = true) : c ≠ ',' := by
  intro he
  rw [he] at h
  exact absurd h (by decide)

/-- The last character of a nonempty string forms a pair with whatever
follows it in a concatenation. -/
theorem pairsOf_boundary : ∀ (u : Str) (hu : u ≠ []) (c : Char) (w : Str),
    (u.getLast hu, c) ∈ pairsOf (u ++ c :: w) := by
  intro u
  induction u with
  | nil => intro hu; exact absurd rfl hu
  | cons a u2 ih =>
    intro hu c w
    cases u2 with
    | nil => simp [pairsOf]
    | cons b rest =>
      have hne : b :: rest ≠ [] := by simp
      have hlast : (a :: b :: rest).getLast hu = (b :: rest).getLast hne :=
        List.getLast_cons hne
      rw [hlast]
      have := ih hne c w
      simpa [pairsOf] using pairsOf_sub_cons a ((b :: rest) ++ c :: w) this

/-! ### The English formats are safe -/

theorem wdAbbrevEn_noBrace : ∀ n : Nat, ∀ c ∈ wdAbbrevEn n, c ≠ '\x7b' ∧ c ≠ '\x7d' := by
  intro n
  rcases n with _|_|_|_|_|_|_|n
  · decide
  · decide
  · decide
  · decide
  · decide
  · decide
  · decide
  · show ∀ c ∈ (['S', 'a', 't'] : Str), c ≠ '\x7b' ∧ c ≠ '\x7d'
    decide

theorem wdFullEn_noBrace : ∀ n : Nat, ∀ c ∈ wdFullEn n, c ≠ '\x7b' ∧ c ≠ '\x7d' := by
  intro n
  rcases n with _|_|_|_|_|_|_|n
  · decide
  · decide
  · decide
  · decide
  · decide
  · decide
  · decide
  · show ∀ c ∈ (['S', 'a', 't', 'u', 'r', 'd', 'a', 'y'] : Str), c ≠ '\x7b' ∧ c ≠ '\x7d'
    decide

theorem monAbbrevEn_noBrace : ∀ n : Nat, ∀ c ∈ monAbbrevEn n, c ≠ '\x7b' ∧ c ≠ '\x7d' := by
  intro n
  rcases n with _|_|_|_|_|_|_|_|_|_|_|_|_|n
  · decide
  · decide
  · decide
  · decide
  · decide
  · decide
  · decide
  · decide
  · decide
  · decide
  · decide
  · decide
  · decide
  · show ∀ c ∈ (['D', 'e', 'c'] : Str), c ≠ '\x7b' ∧ c ≠ '\x7d'
    decide

theorem monFullEn_noBrace : ∀ n : Nat, ∀ c ∈ monFullEn n, c ≠ '\x7b' ∧ c ≠ '\x7d' := by
  intro n
  rcases n with _|_|_|_|_|_|_|_|_|_|_|_|_|n
  · decide
  · decide
  · decide
  · decide
  · decide
  · decide
  · decide
  · decide
  · decide
  · decide
  · decide
  · decide
  · decide
  · show ∀ c ∈ (['D', 'e', 'c', 'e', 'm', 'b', 'e', 'r'] : Str), c ≠ '\x7b' ∧ c ≠ '\x7d'
    decide

theorem wdAbbrevEn_badChar : ∀ n : Nat, ∃ c ∈ wdAbbrevEn n, callCharSet c = false := by
  intro n
  rcases n with _|_|_|_|_|_|_|n
  · decide
  · decide
  · decide
  · decide
  · decide
  · decide
  · decide
  · show ∃ c ∈ (['S', 'a', 't'] : Str), callCharSet c = false
    decide

theorem wdFullEn_badChar : ∀ n : Nat, ∃ c ∈ wdFullEn n, callCharSet c = false := by
  intro n
  rcases n with _|_|_|_|_|_|_|n
  · decide
  · decide
  · decide
  · decide
  · decide
  · decide
  · decide
  · show ∃ c ∈ (['S', 'a', 't', 'u', 'r', 'd', 'a', 'y'] : Str), callCharSet c = false
    decide

theorem safeRepl_time_en (h mi : Nat) : SafeRepl (fmtTime LocaleId.enUS h mi) := by
  have hfmt : fmtTime LocaleId.enUS h mi =
      natDigits (hour12 h) ++ ':' ::
        (pad2 mi ++ ' ' :: (if h < 12 then ['A', 'M'] else ['P', 'M'])) := rfl
  constructor
  · intro c hc
    rw [hfmt] at hc
    by_cases hlt : h < 12
    · rw [if_pos hlt] at hc
      simp only [List.mem_append, List.mem_cons, List.not_mem_nil, or_false] at hc
      casesm* _ ∨ _
      all_goals
        first
        | exact isDig_not_brace (natDigits_digits _ c (by assumption))
        | exact isDig_not_brace (pad2_digits _ c (by assumption))
        | (subst_vars; decide)
    · rw [if_neg hlt] at hc
      simp only [List.mem_append, List.mem_cons, List.not_mem_nil, or_false] at hc
      casesm* _ ∨ _
      all_goals
        first
        | exact isDig_not_brace (natDigits_digits _ c (by assumption))
        | exact isDig_not_brace (pad2_digits _ c (by assumption))
        | (subst_vars; decide)
  · refine notSub_of_spacePair ((pad2 mi).getLast (pad2_ne_nil mi)) ?_ ?_
    · rw [hfmt]
      have hb := pairsOf_boundary (pad2 mi) (pad2_ne_nil mi) ' '
        (if h < 12 then ['A', 'M'] else ['P', 'M'])
      have h1 := pairsOf_sub_cons ':'
        (pad2 mi ++ ' ' :: (if h < 12 then ['A', 'M'] else ['P', 'M'])) hb
      exact pairsOf_append_right (natDigits (hour12 h)) _ h1
    · exact isDig_ne_comma (pad2_digits mi _ (List.getLast_mem _))

theorem safeRepl_compact_en (y m d : Nat) :
    SafeRepl (natDigits m ++ '/' :: (natDigits d ++ '/' :: natDigits y)) := by
  constructor
  · intro c hc
    simp only [List.mem_append, List.mem_cons, List.not_mem_nil, or_false] at hc
    casesm* _ ∨ _
    all_goals
      first
      | exact isDig_not_brace (natDigits_digits _ c (by assumption))
      | (subst_vars; decide)
  · refine notSub_of_badChar '/' ?_ (by decide)
    simp

theorem safeRepl_date_en (sp : Option TSpec) (y m d w : Nat) :
    SafeRepl (fmtDate LocaleId.enUS sp y m d w) := by
  rcases sp with _ | (_ | _ | _)
  · exact safeRepl_compact_en y m d
  · -- SHORT
    have hfmt : fmtDate LocaleId.enUS (some TSpec.short) y m d w =
        wdAbbrevEn w ++ ',' :: ' ' ::
          (monAbbrevEn m ++ ' ' :: (natDigits d ++ ',' :: ' ' :: natDigits y)) := rfl
    constructor
    · intro c hc
      rw [hfmt] at hc
      simp only [List.mem_append, List.mem_cons, List.not_mem_nil, or_false] at hc
      casesm* _ ∨ _
      all_goals
        first
        | exact wdAbbrevEn_noBrace w c (by assumption)
        | exact monAbbrevEn_noBrace m c (by assumption)
        | exact isDig_not_brace (natDigits_digits _ c (by assumption))
        | (subst_vars; decide)
    · obtain ⟨ch, hmem, hbad⟩ := wdAbbrevEn_badChar w
      refine notSub_of_badChar ch ?_ hbad
      rw [hfmt]
      simp [hmem]
  · -- LONG
    have hfmt : fmtDate LocaleId.enUS (some TSpec.long) y m d w =
        wdFullEn w ++ ',' :: ' ' ::
          (monFullEn m ++ ' ' :: (natDigits d ++ ',' :: ' ' :: natDigits y)) := rfl
    constructor
    · intro c hc
      rw [hfmt] at hc
      simp only [List.mem_append, List.mem_cons, List.not_mem_nil, or_false] at hc
      casesm* _ ∨ _
      all_goals
        first
        | exact wdFullEn_noBrace w c (by assumption)
        | exact monFullEn_noBrace m c (by assumption)
        | exact isDig_not_brace (natDigits_digits _ c (by assumption))
        | (subst_vars; decide)
    · obtain ⟨ch, hmem, hbad⟩ := wdFullEn_badChar w
      refine notSub_of_badChar ch ?_ hbad
      rw [hfmt]
      simp [hmem]
  · exact safeRepl_compact_en y m d

/-- Every replacement the `en-US` locale can produce is safe. -/
theorem evalCall_safe_enUS : ∀ (pc : Call) (r : Str), Call.WF pc = true →
    evalCall pc LocaleId.enUS = some r → SafeRepl r := by
  intro pc r _ he
  unfold evalCall at he
  split at he
  · exact absurd he (by simp)
  · split at he
    · exact absurd he (by simp)
    · split at he
      · exact absurd he (by simp)
      · simp only [Option.some.injEq] at he
        subst he
        cases hpk : pc.kind
        · exact safeRepl_date_en _ _ _ _ _
        · exact safeRepl_time_en _ _

/-- The tail of a recognized call always ends in a closing brace. -/
theorem callChars_concat (pc : Call) : ∃ w, callChars pc = w ++ ['\x7d'] := by
  refine ⟨'\x7b' :: '\x7b' ::
    (kindChars pc.kind ++ '(' ::
      (tsfChars pc.ts ++ tzChars pc.tz ++ specChars pc.sp ++ [')', '\x7d'])), ?_⟩
  simp [callChars]

/-- Main stability theorem: when every replacement the locale can produce
is safe, the output of a scan is stable, i.e. a second scan retraces it
verbatim. -/
theorem stable_scanText (loc : LocaleId)
    (hsafe : ∀ (pc : Call) (r : Str), Call.WF pc = true →
      evalCall pc loc = some r → SafeRepl r) :
    ∀ (n : Nat) (s : Str), s.length ≤ n → Stable loc (scanText loc s) := by
  intro n
  induction n with
  | zero =>
    intro s hs
    have : s = [] := by
      cases s with
      | nil => rfl
      | cons c t => simp at hs
    subst this
    rw [scanText_nil]
    exact Stable.nil
  | succ n ih =>
    intro s hs
    cases s with
    | nil =>
      rw [scanText_nil]
      exact Stable.nil
    | cons c t =>
      have ht : t.length ≤ n := by simp at hs; omega
      cases hm : tryMatchSyn (c :: t) with
      | some val =>
        obtain ⟨pc, rest⟩ := val
        have hlen := tryMatchSyn_length hm
        have hrest : rest.length ≤ n := by
          simp only [List.length_cons] at hlen hs
          omega
        have hwf := (tryMatchSyn_eq hm).2
        cases hev : evalCall pc loc with
        | some r =>
          rw [scanText_live loc hm hev]
          exact Stable.prepend r (fun ch hc => ((hsafe pc r hwf hev).noBrace ch hc).1)
            (ih rest hrest)
        | none =>
          rw [scanText_kept loc hm hev]
          exact Stable.kept pc _ hwf hev (ih rest hrest)
      | none =>
        rw [scanText_step loc hm]
        cases hm2 : tryMatchSyn (c :: scanText loc t) with
        | none => exact Stable.step c _ hm2 (ih t ht)
        | some val2 =>
          exfalso
          obtain ⟨pc2, rest2⟩ := val2
          obtain ⟨heq2, hwf2⟩ := tryMatchSyn_eq hm2
          rcases scanText_split loc t.length t (le_refl _) with
            hsp | ⟨v, pc3, u, r, hteq, htscan, hwf3, hev3⟩
          · rw [hsp] at heq2
            have hps := tryMatchSyn_pre pc2 rest2 hwf2
            rw [← heq2, hm] at hps
            exact absurd hps (by simp)
          · have hsafe3 := hsafe pc3 r hwf3 hev3
            rw [htscan] at heq2
            have heq2' : ((c :: v : Str) ++ (r ++ scanText loc u)) = callChars pc2 ++ rest2 := by
              simpa using heq2
            by_cases h1 : (callChars pc2).length ≤ (c :: v : Str).length
            · -- the recognized call lies inside the verbatim prefix of the input
              have htake := congrArg (List.take (callChars pc2).length) heq2'
              rw [List.take_append_of_le_length h1, List.take_left] at htake
              have hAeq : (c :: v : Str) =
                  callChars pc2 ++ (c :: v : Str).drop (callChars pc2).length := by
                conv_lhs => rw [← List.take_append_drop (callChars pc2).length (c :: v : Str)]
                rw [htake]
              have hct : (c :: t : Str) =
                  callChars pc2 ++
                    ((c :: v : Str).drop (callChars pc2).length ++ (callChars pc3 ++ u)) := by
                have h0 : (c :: t : Str) = (c :: v : Str) ++ (callChars pc3 ++ u) := by
                  rw [hteq]
                  rfl
                rw [h0]
                conv_lhs => rw [hAeq]
                rw [List.append_assoc]
              have hps := tryMatchSyn_pre pc2
                ((c :: v : Str).drop (callChars pc2).length ++ (callChars pc3 ++ u)) hwf2
              rw [← hct, hm] at hps
              exact absurd hps (by simp)
            · by_cases h2 : (c :: v : Str).length + r.length ≤ (callChars pc2).length
              · -- the replacement is a contiguous substring of the recognized call
                rw [show ((c :: v : Str) ++ (r ++ scanText loc u)) =
                    ((c :: v : Str) ++ r) ++ scanText loc u by simp] at heq2'
                have htake := congrArg (List.take ((c :: v : Str) ++ r).length) heq2'
                rw [List.take_left] at htake
                rw [List.take_append_of_le_length (by simp at h2 ⊢; omega)] at htake
                have hMeq : callChars pc2 =
                    ((c :: v : Str) ++ r) ++
                      (callChars pc2).drop ((c :: v : Str) ++ r).length := by
                  conv_lhs =>
                    rw [← List.take_append_drop ((c :: v : Str) ++ r).length (callChars pc2)]
                  rw [← htake]
                refine (hsafe3.notSub pc2 (c :: v)
                  ((callChars pc2).drop ((c :: v : Str) ++ r).length) hwf2) ?_
                conv_lhs => rw [hMeq]
                exact List.append_assoc _ _ _
              · -- the recognized call would have to end inside the replacement
                have hk1 : 0 < (callChars pc2).length - (c :: v : Str).length := by
                  simp only [not_le] at h1
                  omega
                have hk2 : (callChars pc2).length - (c :: v : Str).length < r.length := by
                  simp only [not_le] at h2
                  omega
                have htake := congrArg (List.take (callChars pc2).length) heq2'
                rw [List.take_left] at htake
                rw [List.take_append_eq_append_take,
                  @List.take_of_length_le Char (callChars pc2).length (c :: v)
                    (by simp only [not_le] at h1; omega),
                  List.take_append_of_le_length (le_of_lt hk2)] at htake
                set k := (callChars pc2).length - (c :: v : Str).length with hkdef
                have hrtk_ne : r.take k ≠ [] := by
                  intro h0
                  have hlen0 := congrArg List.length h0
                  rw [List.length_take, List.length_nil] at hlen0
                  omega
                obtain ⟨w, hwcc⟩ := callChars_concat pc2
                have hlast1 : (callChars pc2).getLast? = some '\x7d' := by
                  rw [hwcc]
                  exact List.getLast?_concat w
                have hlast2 : (callChars pc2).getLast? = (r.take k).getLast? := by
                  rw [← htake]
                  exact List.getLast?_append_of_ne_nil _ hrtk_ne
                have hmemtk : '\x7d' ∈ r.take k :=
                  List.mem_of_mem_getLast? (Option.mem_def.mpr (hlast2.symm.trans hlast1))
                have hmem : '\x7d' ∈ r := List.take_subset _ r hmemtk
                exact (hsafe3.noBrace _ hmem).2 rfl

/-- C4 amended: for every text and every language tag that resolves to the
default `en-US` locale, `ApplyTextFunctions` is idempotent. -/
theorem claim_C4_amended_idempotent (t lang : Str)
    (hloc : getValidCultureInfo lang = LocaleId.enUS) :
    applyTextFunctions (applyTextFunctions t lang) lang = applyTextFunctions t lang := by
  unfold applyTextFunctions
  rw [hloc]
  exact (stable_scanText LocaleId.enUS evalCall_safe_enUS t.length t (le_refl _)).scan_fix

/-- Witness for C4 amended: a second application changes nothing on a text
with one live match and one preserved malformed call, under `en-US`. -/
theorem claim_C4_amended_idempotent_witness :
    getValidCultureInfo (("en-US").toList) = LocaleId.enUS ∧
    applyTextFunctions
        (applyTextFunctions
          (("\x7b\x7bTIME(2017-02-14T06:08:00Z)\x7d\x7d at \x7b\x7bDATE(2017-13-01T00:00:00Z)\x7d\x7d").toList)
          (("en-US").toList))
        (("en-US").toList) =
      applyTextFunctions
        (("\x7b\x7bTIME(2017-02-14T06:08:00Z)\x7d\x7d at \x7b\x7bDATE(2017-13-01T00:00:00Z)\x7d\x7d").toList)
        (("en-US").toList) :=
  ⟨by decide, claim_C4_amended_idempotent _ _ (by decide)⟩

end ACQml
